import Mathlib

/-!
Verification of the combined-diff parser of go-gitdiff (`gitdiff/combined.go`).

The Go source is embedded shallowly: strings become `List Char`, the
line-oriented parser cursor becomes an explicit list of remaining lines,
`int64` becomes `Int` with the explicit range check of `strconv.ParseInt`,
and the two places where the Go code can fail to return normally are made
explicit: a slice-out-of-range panic is the `runtimePanic` error, and the
body-parser loop (which can fail to advance the cursor) is written with
explicit fuel, `fuelOut` standing for non-termination.

`isNoNewlineMarker` and `removeLastNewline` are called by `combined.go`
but their definitions are not part of the staged sources; they are
modelled from the specification (section 4.4), as marked on their
doc comments.
-/

namespace GitDiff

/-- The characters of a string literal, the representation used for all
embedded Go strings. -/
def str (s : String) : List Char := s.data

/-! ## Data model (`TextFragment`, `Line`, `File`) -/

/-- Operation tag of one hunk line (`OpContext` / `OpAdd` / `OpDelete`). -/
inductive LineOp where
  | context
  | add
  | delete
  deriving DecidableEq, Repr

/-- One (operation, text) pair of a hunk (`gitdiff.Line`). -/
structure DiffLine where
  op : LineOp
  text : List Char
  deriving DecidableEq, Repr

/-- One per-parent hunk (`gitdiff.TextFragment`). Field order and zero
values follow the Go struct. -/
structure TextFragment where
  comment : List Char := []
  oldPosition : Int := 0
  oldLines : Int := 0
  newPosition : Int := 0
  newLines : Int := 0
  linesAdded : Int := 0
  linesDeleted : Int := 0
  leadingContext : Int := 0
  trailingContext : Int := 0
  lines : List DiffLine := []
  deriving DecidableEq, Repr

/-- The enclosing file record (`gitdiff.File`), restricted to the fields
the combined parser reads and writes. -/
structure File where
  isNew : Bool := false
  isDelete : Bool := false
  textFragments : List TextFragment := []
  deriving DecidableEq, Repr

/-! ## The line cursor

The Go `parser` exposes the current line (`p.Line(0)`, the empty string
once the input is exhausted) and an advance (`p.Next()`, returning
`io.EOF` exactly when the new current line does not exist). -/

structure Parser where
  lines : List (List Char)
  deriving DecidableEq, Repr

/-- `p.Line(0)`: the current line, `""` past the end of the input. -/
def Parser.line0 (p : Parser) : List Char := p.lines.headD []

/-- The cursor after `p.Next()`. -/
def Parser.advance (p : Parser) : Parser := ⟨p.lines.tail⟩

/-- Whether `p.Next()` returns `io.EOF`: the new current line does not
exist. -/
def Parser.advanceEOF (p : Parser) : Bool := p.lines.tail.isEmpty

/-! ## Errors -/

/-- A failure of the range tokenizer (`parseCombinedRange`): the bad
token of the start or the end of a range. -/
inductive RangeFailure where
  | badStart (tok : List Char)
  | badEnd (tok : List Char)
  deriving DecidableEq, Repr

/-- The errors of the combined parser. `runtimePanic` models the Go
slice-out-of-range panic `ranges[i][1:]` on an empty range token: the Go
function does not return at all there, which the embedding records as
this distinguished error. -/
inductive ParseError where
  | malformedHeader (cause : Option RangeFailure)
  | runtimePanic
  | emptyFragment
  | invalidOperation (op : Char)
  | emptyHunkChange
  | newFileHasOldContent
  | deletedFileHasNewContent
  deriving DecidableEq, Repr

/-! ## Go string helpers -/

/-- `strings.Index`: index of the first occurrence of `pat`, `none` when
absent. -/
def indexOfSub (pat : List Char) : List Char → Option Nat
  | [] => if pat.isPrefixOf ([] : List Char) then some 0 else none
  | c :: rest =>
    if pat.isPrefixOf (c :: rest) then some 0
    else (indexOfSub pat rest).map (· + 1)

/-- `strings.SplitAfterN(s, sep, 2)` when `sep` occurs in `s`: the part
up to and including the first occurrence, and the rest. `none` when `sep`
does not occur (Go returns a single part). -/
def splitAfterFirst (s sep : List Char) : Option (List Char × List Char) :=
  match indexOfSub sep s with
  | none => none
  | some i => some (s.take (i + sep.length), s.drop (i + sep.length))

/-- `strings.Split(s, sep)` for a one-character separator: every maximal
separator-free run, empty runs included. -/
def splitChar (c : Char) : List Char → List (List Char)
  | [] => [[]]
  | x :: xs =>
    match splitChar c xs with
    | [] => [[]]
    | h :: t => if x = c then [] :: h :: t else (x :: h) :: t

/-- The white space characters `strings.TrimSpace` removes (the ASCII
part of `unicode.IsSpace`). -/
def isGoSpace (c : Char) : Bool :=
  c = ' ' || c = '\t' || c = '\n' || c = '\x0b' || c = '\x0c' || c = '\r'

/-- `strings.TrimSpace`. -/
def trimSpace (s : List Char) : List Char :=
  ((s.dropWhile isGoSpace).reverse.dropWhile isGoSpace).reverse

/-! ## `strconv.ParseInt(s, 10, 64)` -/

def isDigit (c : Char) : Bool := '0' ≤ c && c ≤ '9'

def digitsVal (ds : List Char) : Nat :=
  ds.foldl (fun a c => a * 10 + (c.toNat - '0'.toNat)) 0

/-- Base-10 signed 64-bit parse: an optional sign, at least one digit,
and the value within the `int64` range; `none` on any failure (syntax or
range), as `strconv.ParseInt(s, 10, 64)` returns an error there. -/
def parseInt64 (s : List Char) : Option Int :=
  match s with
  | [] => none
  | c :: rest =>
    let signed : Bool × List Char :=
      if c = '-' then (true, rest)
      else if c = '+' then (false, rest)
      else (false, c :: rest)
    if signed.2 = [] || !signed.2.all isDigit then none
    else
      let v : Int :=
        if signed.1 then -(digitsVal signed.2 : Int) else (digitsVal signed.2 : Int)
      if -(2 ^ 63) ≤ v ∧ v ≤ 2 ^ 63 - 1 then some v else none

/-! ## The range tokenizer (`parseCombinedRange`) -/

/-- `parseCombinedRange`: one `start` or `start,count` token (the sign
character already stripped by the caller). A missing count means 1; the
literal count `18446744073709551615` (the unsigned image of -1 some
producers emit) decodes as -1. -/
def parseCombinedRange (s : List Char) : Except RangeFailure (Int × Int) :=
  match indexOfSub [','] s with
  | none =>
    match parseInt64 s with
    | none => .error (.badStart s)
    | some start => .ok (start, 1)
  | some i =>
    match parseInt64 (s.take i) with
    | none => .error (.badStart (s.take i))
    | some start =>
      let p1 := s.drop (i + 1)
      if p1 = str "18446744073709551615" then .ok (start, -1)
      else
        match parseInt64 p1 with
        | none => .error (.badEnd p1)
        | some stop => .ok (start, stop)

/-! ## The combined header parser -/

/-- `rangeOfTok` is the body of the per-token step of
`parseCombinedHeaderRanges`: strip the leading sign character
(`ranges[i][1:]`, a panic when the token is empty) and tokenize the
range. -/
def rangeOfTok (tok : List Char) : Except (Option RangeFailure) (Int × Int) :=
  match tok with
  | [] => .error none
  | _ :: t =>
    match parseCombinedRange t with
    | .error rf => .error (some rf)
    | .ok v => .ok v

/-- The Go loop over the parent range tokens: left to right, the first
failure aborts. -/
def mapRanges : List (List Char) → Except (Option RangeFailure) (List (Int × Int))
  | [] => .ok []
  | tok :: rest =>
    match rangeOfTok tok with
    | .error e => .error e
    | .ok v =>
      match mapRanges rest with
      | .error e => .error e
      | .ok vs => .ok (v :: vs)

/-- The magnitude of a negative length, 0 otherwise: the per-length
contribution to `negativeCount`. -/
def negPart (x : Int) : Int := if x < 0 then -x else 0

/-- Two's-complement `int64` arithmetic: the representative of `x`
modulo `2 ^ 64` lying in `[-2 ^ 63, 2 ^ 63)`. Every Go `int64` addition
or subtraction of in-range operands equals `wrap64` of the exact
result. -/
def wrap64 (x : Int) : Int := (x + 2 ^ 63) % 2 ^ 64 - 2 ^ 63

/-- `parseCombinedHeaderRanges`: decode the merged (last) range and the
parent ranges, accumulate the magnitudes of all negative decoded lengths
into `negativeCount` (`negativeCount -= length`, an `int64` operation,
hence `wrap64`), and add that adjustment — again in `int64` — to every
old and new length. The error `.error none` stands for the Go panic on
an empty token (and on an empty `ranges`, where Go would index
`ranges[-1]`; the caller never passes that). -/
def parseCombinedHeaderRanges (comment : List Char) (ranges : List (List Char)) :
    Except (Option RangeFailure) (List TextFragment) :=
  match ranges.getLast? with
  | none => .error none
  | some newTok =>
    match rangeOfTok newTok with
    | .error e => .error e
    | .ok nr =>
      match mapRanges ranges.dropLast with
      | .error e => .error e
      | .ok olds =>
        let negativeCount := olds.foldl
          (fun acc q => if q.2 < 0 then wrap64 (acc - q.2) else acc)
          (if nr.2 < 0 then wrap64 (0 - nr.2) else 0)
        .ok (olds.map fun q =>
          { comment := comment
            oldPosition := q.1
            oldLines := wrap64 (q.2 + negativeCount)
            newPosition := nr.1
            newLines := wrap64 (nr.2 + negativeCount) })

/-- The closing marker the Go loop builds: `" @"` and one `@` per
parent, that is `' '` followed by `startEnd + 1` at-signs. -/
def headerEndMark (startEnd : Nat) : List Char :=
  ' ' :: List.replicate (startEnd + 1) '@'

/-- `ParseCombinedTextFragmentHeader`: recognize one combined header
line. `.ok (p, [])` (the cursor unmoved, no fragments) is the
"not a combined header" signal; a recognized but malformed line fails
with `malformedHeader`, an empty range token with `runtimePanic`. On
success the cursor advances past the header line. -/
def parseCombinedTextFragmentHeader (p : Parser) :
    Except ParseError (Parser × List TextFragment) :=
  let line := p.line0
  if !(str "@@@").isPrefixOf line then .ok (p, [])
  else
    match indexOfSub (str "@ -") line with
    | none => .ok (p, [])
    | some startEnd =>
      if !(line.take startEnd).all (· = '@') then .ok (p, [])
      else
        let parentCount := startEnd
        let endMark := headerEndMark startEnd
        let startPos := startEnd + 2
        match splitAfterFirst line endMark with
        | none => .error (.malformedHeader none)
        | some parts =>
          let comment := trimSpace parts.2
          let header := (parts.1.take (parts.1.length - endMark.length)).drop startPos
          let ranges := splitChar ' ' header
          if ranges.length ≠ parentCount + 1 then .error (.malformedHeader none)
          else
            match parseCombinedHeaderRanges comment ranges with
            | .error (some rf) => .error (.malformedHeader (some rf))
            | .error none => .error .runtimePanic
            | .ok frags => .ok (p.advance, frags)

/-! ## The combined body parser -/

/-- `areValidOps`: the line is long enough and its first `count`
characters are all operation characters. -/
def areValidOps (line : List Char) (count : Nat) : Bool :=
  if line.length < count then false
  else (line.take count).all fun c => c = ' ' || c = '+' || c = '-' || c = '\\'

/-- Modelled from the spec: `isNoNewlineMarker` is not among the staged
sources. Section 4.4: a line beginning with `\` that matches the
canonical `\ No newline at end of file` text. -/
def noNewlineText : List Char := str "\\ No newline at end of file"

/-- Modelled from the spec (section 4.4): whether the line is the
"no newline at end of file" marker. -/
def isNoNewlineMarker (s : List Char) : Bool := noNewlineText.isPrefixOf s

/-- Apply `g` to the last element of a list. -/
def modifyLast (g : α → α) : List α → List α
  | [] => []
  | [a] => [g a]
  | a :: b :: rest => a :: modifyLast g (b :: rest)

/-- `strings.TrimSuffix(s, "\n")`. -/
def trimNewlineSuffix (s : List Char) : List Char :=
  if s.getLast? = some '\n' then s.dropLast else s

/-- Modelled from the spec (section 4.4): `removeLastNewline` is not
among the staged sources. Remove the trailing line terminator from the
last `Lines` entry of the fragment. -/
def removeLastNewline (f : TextFragment) : TextFragment :=
  { f with lines := modifyLast (fun l => { l with text := trimNewlineSuffix l.text }) f.lines }

/-- The per-line mutable state of `ParseCombinedTextChunk`:
`noLineChanges` and the running `trailingContext` are function-scoped in
Go, the three `has*` flags are re-initialized on every line. (The Go
`altered` scratch array is written but never read and is omitted.) -/
structure LineFlags where
  noLineChanges : Bool
  trailingContext : Int
  hasAdd : Bool := false
  hasRemove : Bool := false
  hasContext : Bool := false
  deriving DecidableEq, Repr

/-- Outcome of the `for idx, op := range parentOps` loop over one body
line: normal completion, the `continue lineLoop` of a no-newline marker
(which skips `p.Next()`), or the `invalid line operation` error. -/
inductive LineResult where
  | done (frags : List TextFragment) (st : LineFlags)
  | marker (frags : List TextFragment) (noLineChanges : Bool) (trailingContext : Int)
  | fail (op : Char)
  deriving DecidableEq, Repr

/-- Prepend an already-processed parent's fragment to the loop outcome. -/
def LineResult.consFrag (f : TextFragment) : LineResult → LineResult
  | .done fs st => .done (f :: fs) st
  | .marker fs nlc tr => .marker (f :: fs) nlc tr
  | .fail op => .fail op

/-- The loop over one body line's operation characters, parent by
parent, in position order. Each parent's fragment is updated in step
with its character. (The `op :: _, []` case is unreachable: the caller
keeps as many fragments as operation characters; Go would panic
indexing `frags[idx]`.) -/
def applyOps (line data : List Char) :
    List Char → List TextFragment → LineFlags → LineResult
  | [], frags, st => .done frags st
  | _ :: _, [], st => .done [] st
  | op :: ops, frag :: frags, st =>
    if op = ' ' then
      (applyOps line data ops frags { st with hasContext := true }).consFrag
        { frag with lines := frag.lines ++ [{ op := .context, text := data }] }
    else if op = '-' then
      (applyOps line data ops frags
          { st with hasRemove := true, noLineChanges := false, trailingContext := 0 }).consFrag
        { frag with linesDeleted := frag.linesDeleted + 1,
                    lines := frag.lines ++ [{ op := .delete, text := data }] }
    else if op = '+' then
      (applyOps line data ops frags
          { st with hasAdd := true, noLineChanges := false, trailingContext := 0 }).consFrag
        { frag with linesAdded := frag.linesAdded + 1,
                    lines := frag.lines ++ [{ op := .add, text := data }] }
    else if op = '\\' then
      if isNoNewlineMarker line then
        .marker (removeLastNewline frag :: frags) st.noLineChanges st.trailingContext
      else .fail op
    else .fail op

/-- Outcome of the `lineLoop` of `ParseCombinedTextChunk`. `fuelOut`
records that the given fuel did not suffice: the marker branch of
`applyOps` re-enters the loop without advancing the cursor, so the Go
loop has runs that never terminate. -/
inductive LoopOut where
  | out (p : Parser) (frags : List TextFragment) (noLineChanges : Bool)
      (leading trailing : Int)
  | err (p : Parser) (e : ParseError)
  | fuelOut
  deriving DecidableEq, Repr

/-- The `lineLoop` of `ParseCombinedTextChunk`: consume body lines while
they pass `areValidOps`, distributing each to the parents. The
`parentOps = "\n"` special case of the Go source is kept although it is
unreachable (such a line never passes `areValidOps`). -/
def chunkLoop (parentCount : Nat) :
    Nat → Parser → List TextFragment → Bool → Int → Int → LoopOut
  | 0, _, _, _, _, _ => .fuelOut
  | fuel + 1, p, frags, noLineChanges, leading, trailing =>
    let line := p.line0
    if areValidOps line parentCount then
      let ops0 := line.take parentCount
      let parentOps := if ops0 = ['\n'] then [] else ops0
      let data := if ops0 = ['\n'] then ['\n'] else line.drop parentCount
      match applyOps line data parentOps frags
          { noLineChanges := noLineChanges, trailingContext := trailing } with
      | .fail op => .err p (.invalidOperation op)
      | .marker frags1 nlc1 tr1 =>
        chunkLoop parentCount fuel p frags1 nlc1 leading tr1
      | .done frags1 st =>
        let fullContext : Bool := !st.hasRemove && !st.hasAdd && st.hasContext
        let leading1 := if fullContext && st.noLineChanges then leading + 1 else leading
        let trailing1 :=
          if fullContext && !st.noLineChanges then st.trailingContext + 1
          else st.trailingContext
        if p.advanceEOF then .out p.advance frags1 st.noLineChanges leading1 trailing1
        else chunkLoop parentCount fuel p.advance frags1 st.noLineChanges leading1 trailing1
    else .out p frags noLineChanges leading trailing

/-- Result of `ParseCombinedTextChunk`, the final cursor included. -/
inductive ChunkResult where
  | ok (p : Parser) (frags : List TextFragment)
  | err (p : Parser) (e : ParseError)
  | fuelOut
  deriving DecidableEq, Repr

/-- `ParseCombinedTextChunk`: the body of one hunk group. An empty
current line fails at once; after the loop, a group with no add and no
delete fails with `emptyHunkChange`; a trailing no-newline marker is
consumed and strips the last line of every fragment; finally the shared
leading and trailing context counts are assigned to every fragment. -/
def parseCombinedTextChunk (fuel : Nat) (p : Parser) (frags : List TextFragment) :
    ChunkResult :=
  if p.line0 = [] then .err p .emptyFragment
  else
    match chunkLoop frags.length fuel p frags true 0 0 with
    | .fuelOut => .fuelOut
    | .err p1 e => .err p1 e
    | .out p1 frags1 noLineChanges leading trailing =>
      if noLineChanges then .err p1 .emptyHunkChange
      else
        let afterMarker :=
          if isNoNewlineMarker p1.line0 then (p1.advance, frags1.map removeLastNewline)
          else (p1, frags1)
        .ok afterMarker.1 (afterMarker.2.map fun f =>
          { f with leadingContext := leading, trailingContext := trailing })

/-! ## The fragment aggregator -/

/-- Result of `ParseCombinedTextFragments`: the count of fragments
appended, the file, the final cursor, and the error if any. -/
inductive AggResult where
  | done (n : Nat) (f : File) (p : Parser)
  | errored (n : Nat) (f : File) (p : Parser) (e : ParseError)
  | fuelOut
  deriving DecidableEq, Repr

/-- The `for _, frag := range frags` validation loop of
`ParseCombinedTextFragments`: the first fragment violating the new-file
or deleted-file consistency check decides the error. -/
def checkFileFlags (f : File) : List TextFragment → Option ParseError
  | [] => none
  | fr :: rest =>
    if f.isNew ∧ 0 < fr.oldLines then some .newFileHasOldContent
    else if f.isDelete ∧ 0 < fr.newLines then some .deletedFileHasNewContent
    else checkFileFlags f rest

/-- The loop of `ParseCombinedTextFragments`, with `n` the count of
fragments appended so far by this call. -/
def aggLoop : Nat → Parser → File → Nat → AggResult
  | 0, _, _, _ => .fuelOut
  | fuel + 1, p, f, n =>
    match parseCombinedTextFragmentHeader p with
    | .error e => .errored n f p e
    | .ok (p1, frags) =>
      if frags.length = 0 then .done n f p1
      else
        match checkFileFlags f frags with
        | some e => .errored n f p1 e
        | none =>
          match parseCombinedTextChunk fuel p1 frags with
          | .fuelOut => .fuelOut
          | .err p2 e => .errored n f p2 e
          | .ok p2 frags2 =>
            aggLoop fuel p2 { f with textFragments := f.textFragments ++ frags2 }
              (n + frags2.length)

/-- `ParseCombinedTextFragments`: parse hunk groups until the next line
is not a combined header, appending each fully parsed group's fragments
to the file. -/
def parseCombinedTextFragments (fuel : Nat) (p : Parser) (f : File) : AggResult :=
  aggLoop fuel p f 0

/-! ## Specification-side vocabulary

Definitions used only to state the claims: recognition shape, consumed
prefixes, and per-operation counts. -/

/-- The "not a combined header" conditions of the claim: the `@@@`
prefix is missing, the `@ -` delimiter is missing, or a character
before the delimiter is not `@`. -/
def notCombinedHeader (line : List Char) : Bool :=
  if !(str "@@@").isPrefixOf line then true
  else
    match indexOfSub (str "@ -") line with
    | none => true
    | some startEnd => !(line.take startEnd).all (· = '@')

/-- The whitespace-separated range tokens of a recognized combined
header line: `none` when the closing marker is absent or the token
count is not `parentCount + 1`. -/
def headerTokens (line : List Char) : Option (List (List Char)) :=
  match indexOfSub (str "@ -") line with
  | none => none
  | some startEnd =>
    match splitAfterFirst line (headerEndMark startEnd) with
    | none => none
    | some parts =>
      let toks := splitChar ' '
        ((parts.1.take (parts.1.length - (headerEndMark startEnd).length)).drop (startEnd + 2))
      if toks.length = startEnd + 1 then some toks else none

/-- Whether one range token decodes (sign strip plus tokenizer). -/
def tokDecodes (tok : List Char) : Bool :=
  match rangeOfTok tok with
  | .ok _ => true
  | .error _ => false

/-- The length of the maximal prefix of lines that pass the
`areValidOps` shape test for `n` parents. -/
def validLen (n : Nat) (lines : List (List Char)) : Nat :=
  (lines.takeWhile fun l => areValidOps l n).length

/-- The number of lines `ParseCombinedTextChunk` consumes on success:
the maximal valid-shape prefix, plus the line right after it when that
line is a no-newline marker. -/
def consumedSpec (n : Nat) (lines : List (List Char)) : Nat :=
  validLen n lines +
    if isNoNewlineMarker ((lines.drop (validLen n lines)).headD []) then 1 else 0

/-- Whether one operation character records a change. -/
def changeChar (c : Char) : Bool := c = '+' || c = '-'

/-- Whether a body line records a change (`+` or `-`) for some parent
among its first `n` operation characters. -/
def changeOps (n : Nat) (l : List Char) : Bool :=
  (l.take n).any changeChar

/-- The number of Add entries of a line list. -/
def addCount : List DiffLine → Nat
  | [] => 0
  | l :: ls => (if l.op = LineOp.add then 1 else 0) + addCount ls

/-- The number of Delete entries of a line list. -/
def delCount : List DiffLine → Nat
  | [] => 0
  | l :: ls => (if l.op = LineOp.delete then 1 else 0) + delCount ls

/-- The number of Context entries of a line list. -/
def ctxCount : List DiffLine → Nat
  | [] => 0
  | l :: ls => (if l.op = LineOp.context then 1 else 0) + ctxCount ls

/-- The fields every fragment of one hunk group must share after the
header parse: comment, new position and new length. -/
def sharedProj (f : TextFragment) : List Char × Int × Int :=
  (f.comment, f.newPosition, f.newLines)

/-- The count invariant a fragment's body bookkeeping maintains:
`LinesAdded` and `LinesDeleted` equal the number of Add and Delete
entries of `Lines`. -/
def countsOk (f : TextFragment) : Prop :=
  f.linesAdded = (addCount f.lines : Int) ∧ f.linesDeleted = (delCount f.lines : Int)

end GitDiff

deriving instance DecidableEq for Except

namespace GitDiff

/-! # Theorems -/

/-- `wrap64` is the identity on values already in the `int64` range. -/
theorem wrap64_eq_self (x : Int) (h1 : -(2 ^ 63) ≤ x) (h2 : x ≤ 2 ^ 63 - 1) :
    wrap64 x = x := by
  have e63 : (2 : Int) ^ 63 = 9223372036854775808 := by norm_num
  have e64 : (2 : Int) ^ 64 = 18446744073709551616 := by norm_num
  unfold wrap64
  rw [Int.emod_eq_of_lt (by omega) (by omega)]
  omega

/-- Each `negativeCount` contribution is nonnegative. -/
theorem negPart_nonneg (x : Int) : 0 ≤ negPart x := by
  unfold negPart
  split <;> omega

/-- Summing the `negativeCount` contributions gives a nonnegative
adjustment. -/
theorem sum_negPart_nonneg (l : List (Int × Int)) :
    0 ≤ (l.map fun q => negPart q.2).sum := by
  induction l with
  | nil => simp
  | cons q rest ih =>
    simp only [List.map_cons, List.sum_cons]
    have := negPart_nonneg q.2
    omega

/-- The wrapping `negativeCount` fold over the parent ranges equals the
plain sum of the magnitudes of the negative lengths as long as that sum
stays within `int64`. -/
theorem foldl_wrap_negparts (l : List (Int × Int)) :
    ∀ acc : Int, 0 ≤ acc →
      acc + (l.map fun q => negPart q.2).sum ≤ 2 ^ 63 - 1 →
      l.foldl (fun acc2 q => if q.2 < 0 then wrap64 (acc2 - q.2) else acc2) acc =
        acc + (l.map fun q => negPart q.2).sum := by
  induction l with
  | nil => intro acc _ _; simp
  | cons q rest ih =>
    intro acc h0 hb
    have e63 : (2 : Int) ^ 63 = 9223372036854775808 := by norm_num
    simp only [List.map_cons, List.sum_cons] at hb
    simp only [List.foldl_cons, List.map_cons, List.sum_cons]
    have hrest := sum_negPart_nonneg rest
    by_cases hq : q.2 < 0
    · rw [if_pos hq]
      have hnp : negPart q.2 = -q.2 := by unfold negPart; rw [if_pos hq]
      have hw : wrap64 (acc - q.2) = acc - q.2 :=
        wrap64_eq_self _ (by omega) (by omega)
      rw [hw, ih (acc - q.2) (by omega) (by omega)]
      omega
    · rw [if_neg hq]
      have hnp : negPart q.2 = 0 := by unfold negPart; rw [if_neg hq]
      rw [ih acc h0 (by omega)]
      omega

/-- `parseInt64` only returns values in the `int64` range. -/
theorem parseInt64_range (s : List Char) (v : Int) (h : parseInt64 s = some v) :
    -(2 ^ 63) ≤ v ∧ v ≤ 2 ^ 63 - 1 := by
  unfold parseInt64 at h
  cases s with
  | nil => exact Option.noConfusion h
  | cons c rest =>
    simp only at h
    split_ifs at h <;>
      first
        | exact Option.noConfusion h
        | (simp only [Option.some.injEq] at h; subst h; assumption)

/-- The length a range token decodes to is in the `int64` range (ordinary
counts by `parseInt64`'s check, the implicit count 1 and the sentinel's
-1 trivially). -/
theorem parseCombinedRange_snd_range (s : List Char) (v : Int × Int)
    (h : parseCombinedRange s = .ok v) : -(2 ^ 63) ≤ v.2 ∧ v.2 ≤ 2 ^ 63 - 1 := by
  unfold parseCombinedRange at h
  cases hidx : indexOfSub [','] s with
  | none =>
    rw [hidx] at h
    simp only at h
    cases hp : parseInt64 s with
    | none => rw [hp] at h; exact Except.noConfusion h
    | some start =>
      rw [hp] at h
      simp only [Except.ok.injEq] at h
      subst h
      exact ⟨by norm_num, by norm_num⟩
  | some i =>
    rw [hidx] at h
    simp only at h
    cases hp : parseInt64 (s.take i) with
    | none => rw [hp] at h; exact Except.noConfusion h
    | some start =>
      rw [hp] at h
      simp only at h
      split at h
      · simp only [Except.ok.injEq] at h
        subst h
        exact ⟨by norm_num, by norm_num⟩
      · cases hp2 : parseInt64 (s.drop (i + 1)) with
        | none => rw [hp2] at h; exact Except.noConfusion h
        | some stop =>
          rw [hp2] at h
          simp only [Except.ok.injEq] at h
          subst h
          exact parseInt64_range _ _ hp2

/-- The sign-stripped token decode inherits the `int64` length bounds. -/
theorem rangeOfTok_snd_range (tok : List Char) (v : Int × Int)
    (h : rangeOfTok tok = .ok v) : -(2 ^ 63) ≤ v.2 ∧ v.2 ≤ 2 ^ 63 - 1 := by
  cases tok with
  | nil => exact Except.noConfusion h
  | cons c t =>
    unfold rangeOfTok at h
    simp only at h
    cases hp : parseCombinedRange t with
    | error rf => rw [hp] at h; exact Except.noConfusion h
    | ok v2 =>
      rw [hp] at h
      simp only [Except.ok.injEq] at h
      subst h
      exact parseCombinedRange_snd_range t v2 hp

/-- Every decoded parent length is in the `int64` range. -/
theorem mapRanges_snd_range (toks : List (List Char)) (olds : List (Int × Int))
    (h : mapRanges toks = .ok olds) :
    ∀ q ∈ olds, -(2 ^ 63) ≤ q.2 ∧ q.2 ≤ 2 ^ 63 - 1 := by
  induction toks generalizing olds with
  | nil =>
    unfold mapRanges at h
    simp only [Except.ok.injEq] at h
    subst h
    intro q hq
    exact absurd hq (by simp)
  | cons tok rest ih =>
    unfold mapRanges at h
    cases hr : rangeOfTok tok with
    | error e => rw [hr] at h; exact Except.noConfusion h
    | ok v =>
      rw [hr] at h
      cases hm : mapRanges rest with
      | error e => rw [hm] at h; exact Except.noConfusion h
      | ok vs =>
        rw [hm] at h
        simp only [Except.ok.injEq] at h
        subst h
        intro q hq
        rcases List.mem_cons.mp hq with rfl | hq2
        · exact rangeOfTok_snd_range tok q hr
        · exact ih vs hm q hq2

/-- C1, amended. The adjustment is accumulated and applied in `int64`
arithmetic: as long as the sum of the magnitudes of all negative decoded
lengths (the new length and every parent's old length) and every
adjusted length stay within `int64` — always the case for the -1
sentinel — that sum is added to every returned fragment's `OldLines` and
to the shared `NewLines`, so a sentinel-bearing length becomes 0 and
every other length is inflated by the sum. Outside those bounds the
additions wrap (see the counterexample). -/
theorem header_negative_redistribution
    (comment : List Char) (oldToks : List (List Char)) (newTok : List Char)
    (nr : Int × Int) (olds : List (Int × Int))
    (hnew : rangeOfTok newTok = .ok nr)
    (holds : mapRanges oldToks = .ok olds)
    (hS : negPart nr.2 + (olds.map fun q2 => negPart q2.2).sum ≤ 2 ^ 63 - 1)
    (hup : ∀ q ∈ olds,
      q.2 + (negPart nr.2 + (olds.map fun q2 => negPart q2.2).sum) ≤ 2 ^ 63 - 1)
    (hupn : nr.2 + (negPart nr.2 + (olds.map fun q2 => negPart q2.2).sum) ≤ 2 ^ 63 - 1) :
    parseCombinedHeaderRanges comment (oldToks ++ [newTok]) =
      .ok (olds.map fun q =>
        { comment := comment
          oldPosition := q.1
          oldLines := q.2 + (negPart nr.2 + (olds.map fun q2 => negPart q2.2).sum)
          newPosition := nr.1
          newLines := nr.2 + (negPart nr.2 + (olds.map fun q2 => negPart q2.2).sum) }) := by
  have hS0 := sum_negPart_nonneg olds
  have hnp0 := negPart_nonneg nr.2
  have e63 : (2 : Int) ^ 63 = 9223372036854775808 := by norm_num
  have hnr2 := rangeOfTok_snd_range newTok nr hnew
  have holdsrange := mapRanges_snd_range oldToks olds holds
  have hinit : (if nr.2 < 0 then wrap64 (0 - nr.2) else 0) = negPart nr.2 := by
    by_cases hlt : nr.2 < 0
    · have hnp : negPart nr.2 = -nr.2 := by unfold negPart; rw [if_pos hlt]
      rw [if_pos hlt, show (0 : Int) - nr.2 = -nr.2 from by ring, ← hnp]
      exact wrap64_eq_self _ (by omega) (by omega)
    · rw [if_neg hlt]
      unfold negPart
      rw [if_neg hlt]
  have hfold : olds.foldl (fun acc q => if q.2 < 0 then wrap64 (acc - q.2) else acc)
      (if nr.2 < 0 then wrap64 (0 - nr.2) else 0) =
      negPart nr.2 + (olds.map fun q2 => negPart q2.2).sum := by
    rw [hinit]
    exact foldl_wrap_negparts olds (negPart nr.2) hnp0 hS
  simp only [parseCombinedHeaderRanges, List.getLast?_concat, List.dropLast_concat,
    hnew, holds]
  rw [hfold]
  refine congrArg Except.ok (List.map_congr_left ?_)
  intro q hq
  have hqr := holdsrange q hq
  have hqup := hup q hq
  have h1 : wrap64 (q.2 + (negPart nr.2 + (olds.map fun q2 => negPart q2.2).sum)) =
      q.2 + (negPart nr.2 + (olds.map fun q2 => negPart q2.2).sum) :=
    wrap64_eq_self _ (by omega) (by omega)
  have h2 : wrap64 (nr.2 + (negPart nr.2 + (olds.map fun q2 => negPart q2.2).sum)) =
      nr.2 + (negPart nr.2 + (olds.map fun q2 => negPart q2.2).sum) :=
    wrap64_eq_self _ (by omega) (by omega)
  rw [h1, h2]

/-- C1, witness: the sentinel header of the claim. The raw decodes are
`(229, 4)`, `(229, -1)` (the count token `18446744073709551615` decodes
as -1) and `(228, 3)`; the adjustment is 1, so stub 0 has `OldLines = 5`,
stub 1 has `OldLines = 0` and both have `NewLines = 4`, as the full
header-line parse confirms. -/
theorem header_negative_redistribution_witness :
    parseCombinedHeaderRanges []
        [str "-229,4", str "-229,18446744073709551615", str "+228,3"] =
      .ok
        [{ comment := [], oldPosition := 229, oldLines := 5,
           newPosition := 228, newLines := 4 },
         { comment := [], oldPosition := 229, oldLines := 0,
           newPosition := 228, newLines := 4 }] ∧
    parseCombinedTextFragmentHeader
        ⟨[str "@@@ -229,4 -229,18446744073709551615 +228,3 @@@\n"]⟩ =
      .ok (⟨[]⟩,
        [{ comment := [], oldPosition := 229, oldLines := 5,
           newPosition := 228, newLines := 4 },
         { comment := [], oldPosition := 229, oldLines := 0,
           newPosition := 228, newLines := 4 }]) := by
  constructor
  · have h := header_negative_redistribution []
      [str "-229,4", str "-229,18446744073709551615"] (str "+228,3")
      (228, 3) [(229, 4), (229, -1)] rfl rfl (by decide) (by decide) (by decide)
    simpa using h
  · rfl

/-- C1, counterexample to the unconditional redistribution claim. The
header `@@@ -5,2 -1,-9223372036854775808 +7,3 @@@` is accepted: its count
token decodes to the most negative `int64`, so the sum of the magnitudes
of the negative decoded lengths is `2 ^ 63`. The claim would make
stub 0's `OldLines` equal `2 + 2 ^ 63`, but the `int64` accumulation
`negativeCount -= count` wraps `2 ^ 63` to `-(2 ^ 63)` and the code
returns `2 - 2 ^ 63` instead (and `0`, not `1 + 2 ^ 63`, for stub 1,
whose addition wraps again at `-(2 ^ 64)`). -/
theorem header_wrap_counterexample :
    parseCombinedTextFragmentHeader
        ⟨[str "@@@ -5,2 -1,-9223372036854775808 +7,3 @@@\n"]⟩ =
      .ok (⟨[]⟩,
        [{ comment := [], oldPosition := 5, oldLines := 2 - 2 ^ 63,
           newPosition := 7, newLines := 3 - 2 ^ 63 },
         { comment := [], oldPosition := 1, oldLines := 0,
           newPosition := 7, newLines := 3 - 2 ^ 63 }]) ∧
    mapRanges [str "-5,2", str "-1,-9223372036854775808"] =
      .ok [(5, 2), (1, -(2 ^ 63))] ∧
    rangeOfTok (str "+7,3") = .ok (7, 3) ∧
    (2 - 2 ^ 63 : Int) ≠
      2 + (negPart 3 +
        ([((5 : Int), (2 : Int)), (1, -(2 ^ 63))].map fun q2 => negPart q2.2).sum) := by
  exact ⟨rfl, rfl, rfl, by decide⟩

/-- C3, counterexample. Parsing `@@@ -1 -1 +1 @@@` with body `- old`,
`+ new` succeeds with 2 stubs, but stub 1's lines are
`[(Context, "old\n"), (Context, "new\n")]`: on the body line `+ new`
parent 1 reads the character at index 1, which is a space, so stub 1
gets a Context line, not the Add line the claim states. -/
theorem two_parent_example_counterexample :
    parseCombinedTextFragments 10
        ⟨[str "@@@ -1 -1 +1 @@@\n", str "- old\n", str "+ new\n"]⟩ {} =
      .done 2
        { textFragments :=
            [{ oldPosition := 1, oldLines := 1, newPosition := 1, newLines := 1,
               linesAdded := 1, linesDeleted := 1,
               lines := [{ op := .delete, text := str "old\n" },
                         { op := .add, text := str "new\n" }] },
             { oldPosition := 1, oldLines := 1, newPosition := 1, newLines := 1,
               lines := [{ op := .context, text := str "old\n" },
                         { op := .context, text := str "new\n" }] }] }
        ⟨[]⟩ ∧
    ([{ op := .context, text := str "old\n" },
      { op := .context, text := str "new\n" }] : List DiffLine) ≠
      [{ op := .context, text := str "old\n" },
       { op := .add, text := str "new\n" }] := by
  exact ⟨rfl, by decide⟩

/-- C3, amended. Parsing the two-parent header `@@@ -1 -1 +1 @@@`
followed by the body lines `- old` and `+ new` yields 2 stubs with
stub 0's lines `[(Delete, "old\n"), (Add, "new\n")]` and stub 1's lines
`[(Context, "old\n"), (Context, "new\n")]`, the classification of
parent `i` being read positionally from character `i` of each body
line. -/
theorem two_parent_example_amended :
    parseCombinedTextFragments 10
        ⟨[str "@@@ -1 -1 +1 @@@\n", str "- old\n", str "+ new\n"]⟩ {} =
      .done 2
        { textFragments :=
            [{ oldPosition := 1, oldLines := 1, newPosition := 1, newLines := 1,
               linesAdded := 1, linesDeleted := 1,
               lines := [{ op := .delete, text := str "old\n" },
                         { op := .add, text := str "new\n" }] },
             { oldPosition := 1, oldLines := 1, newPosition := 1, newLines := 1,
               lines := [{ op := .context, text := str "old\n" },
                         { op := .context, text := str "new\n" }] }] }
        ⟨[]⟩ := by
  rfl

/-- C4, counterexample. The sentinel-free header `@@@ -1,5 -1,5 +1,1 @@@`
with the single body line `--x` parses successfully, yet stub 0 declares
`OldLines = 5` while its lines hold 0 Context entries and 1 Delete
entry: the header-declared old length does not round-trip to the body,
because the body parser never validates the declared counts. -/
theorem oldlines_roundtrip_counterexample :
    parseCombinedTextFragments 10
        ⟨[str "@@@ -1,5 -1,5 +1,1 @@@\n", str "--x\n"]⟩ {} =
      .done 2
        { textFragments :=
            [{ oldPosition := 1, oldLines := 5, newPosition := 1, newLines := 1,
               linesDeleted := 1, lines := [{ op := .delete, text := str "x\n" }] },
             { oldPosition := 1, oldLines := 5, newPosition := 1, newLines := 1,
               linesDeleted := 1, lines := [{ op := .delete, text := str "x\n" }] }] }
        ⟨[]⟩ ∧
    ¬ ((5 : Int) =
        ((ctxCount [{ op := .delete, text := str "x\n" }] +
          delCount [{ op := .delete, text := str "x\n" }] : Nat) : Int)) := by
  exact ⟨rfl, by decide⟩

/-- C5, counterexample. The line `@@@ -1 +1  @@@ x` (two spaces before
the closing marker) is recognized as a combined header and its range
section splits into exactly 3 = N+1 tokens, `-1`, `+1` and the empty
token; on the empty token the Go code slices `ranges[i][1:]` and
panics (modelled as `runtimePanic`) instead of returning the
`MalformedHeader` error the claim requires for every token that fails
integer parsing. -/
theorem header_empty_token_counterexample :
    parseCombinedTextFragmentHeader ⟨[str "@@@ -1 +1  @@@ x\n"]⟩ =
      .error .runtimePanic ∧
    notCombinedHeader (str "@@@ -1 +1  @@@ x\n") = false ∧
    headerTokens (str "@@@ -1 +1  @@@ x\n") = some [str "-1", str "+1", []] ∧
    (ParseError.runtimePanic ≠ .malformedHeader none ∧
      ∀ rf : RangeFailure, ParseError.runtimePanic ≠ .malformedHeader (some rf)) := by
  refine ⟨rfl, rfl, rfl, by decide, fun rf h => by cases h⟩

/-! ## Helper lemmas: counting -/

theorem addCount_append (a b : List DiffLine) :
    addCount (a ++ b) = addCount a + addCount b := by
  induction a with
  | nil => simp [addCount]
  | cons l ls ih => simp [addCount, ih]; omega

theorem delCount_append (a b : List DiffLine) :
    delCount (a ++ b) = delCount a + delCount b := by
  induction a with
  | nil => simp [delCount]
  | cons l ls ih => simp [delCount, ih]; omega

theorem addCount_modifyLast (g : DiffLine → DiffLine) (h : ∀ l, (g l).op = l.op) :
    ∀ ls, addCount (modifyLast g ls) = addCount ls := by
  intro ls
  induction ls with
  | nil => rfl
  | cons l ls ih =>
    cases ls with
    | nil => simp [modifyLast, addCount, h]
    | cons b rest => simpa [modifyLast, addCount] using ih

theorem delCount_modifyLast (g : DiffLine → DiffLine) (h : ∀ l, (g l).op = l.op) :
    ∀ ls, delCount (modifyLast g ls) = delCount ls := by
  intro ls
  induction ls with
  | nil => rfl
  | cons l ls ih =>
    cases ls with
    | nil => simp [modifyLast, delCount, h]
    | cons b rest => simpa [modifyLast, delCount] using ih

theorem countsOk_removeLastNewline (f : TextFragment) (h : countsOk f) :
    countsOk (removeLastNewline f) := by
  obtain ⟨ha, hd⟩ := h
  constructor
  · simpa [removeLastNewline, addCount_modifyLast (fun l => { l with text := trimNewlineSuffix l.text }) (fun l => rfl)] using ha
  · simpa [removeLastNewline, delCount_modifyLast (fun l => { l with text := trimNewlineSuffix l.text }) (fun l => rfl)] using hd

theorem sharedProj_removeLastNewline (f : TextFragment) :
    sharedProj (removeLastNewline f) = sharedProj f := rfl

/-! ## Helper lemmas: `applyOps` -/

theorem applyOps_done_spec (line data : List Char) :
    ∀ (ops : List Char) (frags : List TextFragment) (st : LineFlags)
      (frags1 : List TextFragment) (st1 : LineFlags),
      ops.length ≤ frags.length →
      applyOps line data ops frags st = .done frags1 st1 →
      frags1.length = frags.length ∧
      st1.noLineChanges = (st.noLineChanges && !(ops.any changeChar)) ∧
      frags1.map sharedProj = frags.map sharedProj ∧
      ((∀ fr ∈ frags, countsOk fr) → ∀ fr ∈ frags1, countsOk fr) := by
  intro ops
  induction ops with
  | nil =>
    intro frags st frags1 st1 _ h
    simp only [applyOps, LineResult.done.injEq] at h
    obtain ⟨rfl, rfl⟩ := h
    simp
  | cons op ops ih =>
    intro frags st frags1 st1 hlen h
    match frags with
    | [] => simp at hlen
    | f :: fs =>
      have hlen2 : ops.length ≤ fs.length := by
        simp only [List.length_cons] at hlen; omega
      by_cases h1 : op = ' '
      · subst h1
        rw [show applyOps line data (' ' :: ops) (f :: fs) st =
            (applyOps line data ops fs { st with hasContext := true }).consFrag
              { f with lines := f.lines ++ [{ op := .context, text := data }] } from rfl] at h
        cases hr : applyOps line data ops fs { st with hasContext := true } with
        | done fs1 st1x =>
          rw [hr] at h
          simp only [LineResult.consFrag, LineResult.done.injEq] at h
          obtain ⟨rfl, rfl⟩ := h
          obtain ⟨hl, hn, hs, hc⟩ := ih fs _ fs1 st1x hlen2 hr
          refine ⟨by simp [hl], ?_, ?_, ?_⟩
          · simpa [List.any_cons, changeChar] using hn
          · simp [hs, sharedProj]
          · intro hall fr hfr
            simp only [List.mem_cons] at hfr
            rcases hfr with rfl | hfr
            · obtain ⟨ha, hd⟩ := hall f (by simp)
              exact ⟨by simp [addCount_append, addCount, ha],
                by simp [delCount_append, delCount, hd]⟩
            · exact hc (fun fr2 hfr2 => hall fr2 (by simp [hfr2])) fr hfr
        | marker fs1 a b => rw [hr] at h; exact LineResult.noConfusion h
        | fail c => rw [hr] at h; exact LineResult.noConfusion h
      · by_cases h2 : op = '-'
        · subst h2
          rw [show applyOps line data ('-' :: ops) (f :: fs) st =
              (applyOps line data ops fs
                  { st with hasRemove := true, noLineChanges := false, trailingContext := 0 }).consFrag
                { f with linesDeleted := f.linesDeleted + 1,
                         lines := f.lines ++ [{ op := .delete, text := data }] } from rfl] at h
          cases hr : applyOps line data ops fs
              { st with hasRemove := true, noLineChanges := false, trailingContext := 0 } with
          | done fs1 st1x =>
            rw [hr] at h
            simp only [LineResult.consFrag, LineResult.done.injEq] at h
            obtain ⟨rfl, rfl⟩ := h
            obtain ⟨hl, hn, hs, hc⟩ := ih fs _ fs1 st1x hlen2 hr
            refine ⟨by simp [hl], ?_, ?_, ?_⟩
            · simp only at hn
              simp [List.any_cons, changeChar, hn]
            · simp [hs, sharedProj]
            · intro hall fr hfr
              simp only [List.mem_cons] at hfr
              rcases hfr with rfl | hfr
              · obtain ⟨ha, hd⟩ := hall f (by simp)
                exact ⟨by simp [addCount_append, addCount, ha],
                  by simp [delCount_append, delCount, hd]⟩
              · exact hc (fun fr2 hfr2 => hall fr2 (by simp [hfr2])) fr hfr
          | marker fs1 a b => rw [hr] at h; exact LineResult.noConfusion h
          | fail c => rw [hr] at h; exact LineResult.noConfusion h
        · by_cases h3 : op = '+'
          · subst h3
            rw [show applyOps line data ('+' :: ops) (f :: fs) st =
                (applyOps line data ops fs
                    { st with hasAdd := true, noLineChanges := false, trailingContext := 0 }).consFrag
                  { f with linesAdded := f.linesAdded + 1,
                           lines := f.lines ++ [{ op := .add, text := data }] } from rfl] at h
            cases hr : applyOps line data ops fs
                { st with hasAdd := true, noLineChanges := false, trailingContext := 0 } with
            | done fs1 st1x =>
              rw [hr] at h
              simp only [LineResult.consFrag, LineResult.done.injEq] at h
              obtain ⟨rfl, rfl⟩ := h
              obtain ⟨hl, hn, hs, hc⟩ := ih fs _ fs1 st1x hlen2 hr
              refine ⟨by simp [hl], ?_, ?_, ?_⟩
              · simp only at hn
                simp [List.any_cons, changeChar, hn]
              · simp [hs, sharedProj]
              · intro hall fr hfr
                simp only [List.mem_cons] at hfr
                rcases hfr with rfl | hfr
                · obtain ⟨ha, hd⟩ := hall f (by simp)
                  exact ⟨by simp [addCount_append, addCount, ha],
                    by simp [delCount_append, delCount, hd]⟩
                · exact hc (fun fr2 hfr2 => hall fr2 (by simp [hfr2])) fr hfr
            | marker fs1 a b => rw [hr] at h; exact LineResult.noConfusion h
            | fail c => rw [hr] at h; exact LineResult.noConfusion h
          · by_cases h4 : op = '\\'
            · subst h4
              rw [show applyOps line data ('\\' :: ops) (f :: fs) st =
                  (if isNoNewlineMarker line then
                    LineResult.marker (removeLastNewline f :: fs) st.noLineChanges st.trailingContext
                  else .fail '\\') from rfl] at h
              by_cases hm : isNoNewlineMarker line
              · rw [if_pos hm] at h; exact LineResult.noConfusion h
              · rw [if_neg hm] at h; exact LineResult.noConfusion h
            · simp only [applyOps, if_neg h1, if_neg h2, if_neg h3, if_neg h4] at h
              exact LineResult.noConfusion h

theorem applyOps_marker_head (line data : List Char) (hm : isNoNewlineMarker line = true)
    (ops : List Char) (f : TextFragment) (fs : List TextFragment) (st : LineFlags) :
    applyOps line data ('\\' :: ops) (f :: fs) st =
      .marker (removeLastNewline f :: fs) st.noLineChanges st.trailingContext := by
  rw [show applyOps line data ('\\' :: ops) (f :: fs) st =
      (if isNoNewlineMarker line then
        LineResult.marker (removeLastNewline f :: fs) st.noLineChanges st.trailingContext
      else .fail '\\') from rfl, if_pos hm]

theorem applyOps_no_marker (line data : List Char) (hm : isNoNewlineMarker line = false) :
    ∀ (ops : List Char) (frags frags1 : List TextFragment) (st : LineFlags)
      (nlc1 : Bool) (tr1 : Int),
      applyOps line data ops frags st ≠ .marker frags1 nlc1 tr1 := by
  intro ops
  induction ops with
  | nil =>
    intro frags frags1 st nlc1 tr1 h
    simp [applyOps] at h
  | cons op ops ih =>
    intro frags frags1 st nlc1 tr1 h
    match frags with
    | [] =>
      rw [show applyOps line data (op :: ops) ([] : List TextFragment) st =
        .done [] st from rfl] at h
      exact LineResult.noConfusion h
    | f :: fs =>
      by_cases h1 : op = ' '
      · subst h1
        rw [show applyOps line data (' ' :: ops) (f :: fs) st =
            (applyOps line data ops fs { st with hasContext := true }).consFrag
              { f with lines := f.lines ++ [{ op := .context, text := data }] } from rfl] at h
        cases hr : applyOps line data ops fs { st with hasContext := true } with
        | done a b => rw [hr] at h; exact LineResult.noConfusion h
        | marker a b c => exact ih fs a _ b c hr
        | fail c => rw [hr] at h; exact LineResult.noConfusion h
      · by_cases h2 : op = '-'
        · subst h2
          rw [show applyOps line data ('-' :: ops) (f :: fs) st =
              (applyOps line data ops fs
                  { st with hasRemove := true, noLineChanges := false, trailingContext := 0 }).consFrag
                { f with linesDeleted := f.linesDeleted + 1,
                         lines := f.lines ++ [{ op := .delete, text := data }] } from rfl] at h
          cases hr : applyOps line data ops fs
              { st with hasRemove := true, noLineChanges := false, trailingContext := 0 } with
          | done a b => rw [hr] at h; exact LineResult.noConfusion h
          | marker a b c => exact ih fs a _ b c hr
          | fail c => rw [hr] at h; exact LineResult.noConfusion h
        · by_cases h3 : op = '+'
          · subst h3
            rw [show applyOps line data ('+' :: ops) (f :: fs) st =
                (applyOps line data ops fs
                    { st with hasAdd := true, noLineChanges := false, trailingContext := 0 }).consFrag
                  { f with linesAdded := f.linesAdded + 1,
                           lines := f.lines ++ [{ op := .add, text := data }] } from rfl] at h
            cases hr : applyOps line data ops fs
                { st with hasAdd := true, noLineChanges := false, trailingContext := 0 } with
            | done a b => rw [hr] at h; exact LineResult.noConfusion h
            | marker a b c => exact ih fs a _ b c hr
            | fail c => rw [hr] at h; exact LineResult.noConfusion h
          · by_cases h4 : op = '\\'
            · subst h4
              rw [show applyOps line data ('\\' :: ops) (f :: fs) st =
                  (if isNoNewlineMarker line then
                    LineResult.marker (removeLastNewline f :: fs) st.noLineChanges st.trailingContext
                  else .fail '\\') from rfl, if_neg (by simp [hm])] at h
              exact LineResult.noConfusion h
            · simp only [applyOps, if_neg h1, if_neg h2, if_neg h3, if_neg h4] at h
              exact LineResult.noConfusion h

/-! ## Helper lemmas: shape facts -/

theorem valid_length {l : List Char} {pc : Nat} (hv : areValidOps l pc = true) :
    pc ≤ l.length := by
  unfold areValidOps at hv
  split at hv
  · exact Bool.noConfusion hv
  · omega

theorem take_length_of_valid {l : List Char} {pc : Nat} (hv : areValidOps l pc = true) :
    (l.take pc).length = pc := by
  have := valid_length hv
  simp [List.length_take]
  omega

theorem take_ne_newline_of_valid {l : List Char} {pc : Nat}
    (hv : areValidOps l pc = true) : l.take pc ≠ ['\n'] := by
  intro heq
  unfold areValidOps at hv
  split at hv
  · exact Bool.noConfusion hv
  · rw [heq] at hv
    exact absurd hv (by decide)

theorem marker_head {l : List Char} (hm : isNoNewlineMarker l = true) :
    ∃ rest, l = '\\' :: rest := by
  unfold isNoNewlineMarker at hm
  rw [List.isPrefixOf_iff_prefix] at hm
  obtain ⟨t, ht⟩ := hm
  exact ⟨noNewlineText.tail ++ t, by rw [← ht]; rfl⟩

/-! ## Helper lemmas: the body loop -/

theorem chunkLoop_marker_absorbs (pc : Nat) (p : Parser)
    (hv : areValidOps p.line0 pc = true)
    (hm : isNoNewlineMarker p.line0 = true) (hpc : 0 < pc) :
    ∀ (fuel : Nat) (frags : List TextFragment), frags.length = pc →
      ∀ (nlc : Bool) (ld tr : Int), chunkLoop pc fuel p frags nlc ld tr = .fuelOut := by
  intro fuel
  induction fuel with
  | zero => intro frags _ nlc ld tr; rfl
  | succ k ih =>
    intro frags hlen nlc ld tr
    obtain ⟨rest, hline⟩ := marker_head hm
    obtain ⟨k2, rfl⟩ : ∃ k2, pc = k2 + 1 := ⟨pc - 1, by omega⟩
    match frags, hlen with
    | f :: fs, hlen =>
      have hops : p.line0.take (k2 + 1) = '\\' :: rest.take k2 := by
        rw [hline]; rfl
      have hA : applyOps p.line0 (p.line0.drop (k2 + 1)) (p.line0.take (k2 + 1))
          (f :: fs) { noLineChanges := nlc, trailingContext := tr } =
          .marker (removeLastNewline f :: fs) nlc tr := by
        rw [hops]
        exact applyOps_marker_head _ _ hm _ _ _ _
      simp only [chunkLoop]
      rw [if_pos hv, if_neg (take_ne_newline_of_valid hv),
        if_neg (take_ne_newline_of_valid hv), hA]
      exact ih (removeLastNewline f :: fs) (by simpa using hlen) nlc ld tr

theorem chunkLoop_err_invalidOp (pc : Nat) :
    ∀ (fuel : Nat) (p p1 : Parser) (frags : List TextFragment)
      (nlc : Bool) (ld tr : Int) (e : ParseError),
      chunkLoop pc fuel p frags nlc ld tr = .err p1 e →
      ∃ op, e = .invalidOperation op := by
  intro fuel
  induction fuel with
  | zero =>
    intro p p1 frags nlc ld tr e h
    exact LoopOut.noConfusion h
  | succ k ih =>
    intro p p1 frags nlc ld tr e h
    by_cases hv : areValidOps p.line0 pc = true
    · simp only [chunkLoop] at h
      rw [if_pos hv] at h
      by_cases hnl : p.line0.take pc = ['\n']
      · rw [if_pos hnl, if_pos hnl] at h
        cases hA : applyOps p.line0 ['\n'] [] frags
            { noLineChanges := nlc, trailingContext := tr } with
        | done frags2 st2 =>
          rw [hA] at h
          simp only at h
          split at h
          · exact LoopOut.noConfusion h
          · exact ih _ _ _ _ _ _ _ h
        | marker frags2 nlc2 tr2 =>
          rw [hA] at h
          simp only at h
          exact ih _ _ _ _ _ _ _ h
        | fail op =>
          rw [hA] at h
          simp only [LoopOut.err.injEq] at h
          exact ⟨op, h.2.symm⟩
      · rw [if_neg hnl, if_neg hnl] at h
        cases hA : applyOps p.line0 (p.line0.drop pc) (p.line0.take pc) frags
            { noLineChanges := nlc, trailingContext := tr } with
        | done frags2 st2 =>
          rw [hA] at h
          simp only at h
          split at h
          · exact LoopOut.noConfusion h
          · exact ih _ _ _ _ _ _ _ h
        | marker frags2 nlc2 tr2 =>
          rw [hA] at h
          simp only at h
          exact ih _ _ _ _ _ _ _ h
        | fail op =>
          rw [hA] at h
          simp only [LoopOut.err.injEq] at h
          exact ⟨op, h.2.symm⟩
    · simp only [chunkLoop] at h
      rw [if_neg hv] at h
      exact LoopOut.noConfusion h

theorem chunkLoop_out_spec (pc : Nat) :
    ∀ (fuel : Nat) (p p1 : Parser) (frags frags1 : List TextFragment)
      (nlc nlc1 : Bool) (ld tr ld1 tr1 : Int),
      frags.length = pc →
      chunkLoop pc fuel p frags nlc ld tr = .out p1 frags1 nlc1 ld1 tr1 →
      p1.lines = p.lines.drop (validLen pc p.lines) ∧
      frags1.length = pc ∧
      nlc1 = (nlc && !((p.lines.takeWhile fun l => areValidOps l pc).any (changeOps pc))) ∧
      frags1.map sharedProj = frags.map sharedProj ∧
      ((∀ fr ∈ frags, countsOk fr) → ∀ fr ∈ frags1, countsOk fr) := by
  intro fuel
  induction fuel with
  | zero =>
    intro p p1 frags frags1 nlc nlc1 ld tr ld1 tr1 hlen h
    exact LoopOut.noConfusion h
  | succ k ih =>
    intro p p1 frags frags1 nlc nlc1 ld tr ld1 tr1 hlen h
    obtain ⟨lines⟩ := p
    by_cases hv : areValidOps (Parser.line0 ⟨lines⟩) pc = true
    case neg =>
      simp only [chunkLoop] at h
      rw [if_neg hv] at h
      simp only [LoopOut.out.injEq] at h
      obtain ⟨rfl, rfl, rfl, rfl, rfl⟩ := h
      have htw : lines.takeWhile (fun l => areValidOps l pc) = [] := by
        cases lines with
        | nil => rfl
        | cons l ls =>
          have hl0 : Parser.line0 ⟨l :: ls⟩ = l := rfl
          rw [hl0] at hv
          simp [List.takeWhile_cons, hv]
      refine ⟨?_, hlen, ?_, rfl, fun hall => hall⟩
      · simp [validLen, htw]
      · simp [htw]
    case pos =>
      cases lines with
      | nil =>
        have hl0 : Parser.line0 ⟨([] : List (List Char))⟩ = [] := rfl
        have hpc : pc = 0 := by
          have := valid_length (hl0 ▸ hv)
          simpa using this
        subst hpc
        rw [show chunkLoop 0 (k + 1) ⟨([] : List (List Char))⟩ frags nlc ld tr =
            .out ⟨([] : List (List Char))⟩ frags nlc ld tr from rfl] at h
        simp only [LoopOut.out.injEq] at h
        obtain ⟨rfl, rfl, rfl, rfl, rfl⟩ := h
        exact ⟨by simp, hlen, by simp, rfl, fun hall => hall⟩
      | cons l ls =>
        have hl0 : Parser.line0 ⟨l :: ls⟩ = l := rfl
        rw [hl0] at hv
        have hnl : l.take pc ≠ ['\n'] := take_ne_newline_of_valid hv
        have htw : (l :: ls).takeWhile (fun l2 => areValidOps l2 pc) =
            l :: ls.takeWhile (fun l2 => areValidOps l2 pc) := by
          simp [List.takeWhile_cons, hv]
        have hvl : validLen pc (l :: ls) = validLen pc ls + 1 := by
          simp [validLen, htw]
        simp only [chunkLoop] at h
        rw [hl0, if_pos hv, if_neg hnl, if_neg hnl] at h
        cases hA : applyOps l (l.drop pc) (l.take pc) frags
            { noLineChanges := nlc, trailingContext := tr } with
        | fail op =>
          rw [hA] at h
          exact LoopOut.noConfusion h
        | marker frags2 nlc2 tr2 =>
          rw [hA] at h
          simp only at h
          by_cases hm : isNoNewlineMarker l = true
          · match pcEq : pc, hlen with
            | 0, hlen =>
              rw [show l.take 0 = [] from rfl] at hA
              have : LineResult.done frags
                  { noLineChanges := nlc, trailingContext := tr } =
                  LineResult.marker frags2 nlc2 tr2 := hA
              exact LineResult.noConfusion this
            | k2 + 1, hlen =>
              match frags, hlen with
              | f :: fs, hlen =>
                obtain ⟨rest, hlrest⟩ := marker_head hm
                have hops : l.take (k2 + 1) = '\\' :: rest.take k2 := by
                  rw [hlrest]; rfl
                rw [hops, applyOps_marker_head l (l.drop (k2 + 1)) hm _ f fs _] at hA
                simp only [LineResult.marker.injEq] at hA
                obtain ⟨hfr2, hnlc2, htr2⟩ := hA
                subst hfr2; subst hnlc2; subst htr2
                obtain ⟨g1, g2, g3, g4, g5⟩ := ih ⟨l :: ls⟩ p1
                  (removeLastNewline f :: fs) frags1 nlc nlc1 ld tr ld1 tr1
                  (by simpa using hlen) h
                refine ⟨g1, g2, g3, ?_, ?_⟩
                · rw [g4]
                  simp [sharedProj_removeLastNewline]
                · intro hall
                  refine g5 ?_
                  intro fr hfr
                  simp only [List.mem_cons] at hfr
                  rcases hfr with rfl | hfr
                  · exact countsOk_removeLastNewline f (hall f (by simp))
                  · exact hall fr (by simp [hfr])
          · exact absurd hA
              (applyOps_no_marker l (l.drop pc) (by simpa using hm) _ _ _ _ _ _)
        | done frags2 st2 =>
          rw [hA] at h
          simp only at h
          have hlen2 : (l.take pc).length ≤ frags.length := by
            rw [take_length_of_valid hv, hlen]
          obtain ⟨dl, dn, ds, dc⟩ :=
            applyOps_done_spec l (l.drop pc) (l.take pc) frags _ frags2 st2 hlen2 hA
          have hch : ((l.take pc).any changeChar) = changeOps pc l := rfl
          split at h
          case isTrue heof =>
            have hls : ls = [] := by
              simpa [Parser.advanceEOF] using heof
            subst hls
            simp only [LoopOut.out.injEq] at h
            obtain ⟨rfl, rfl, rfl, rfl, rfl⟩ := h
            refine ⟨?_, by rw [dl, hlen], ?_, ds, dc⟩
            · rw [hvl]
              simp [validLen, Parser.advance]
            · rw [dn, htw]
              simp [changeOps]
          case isFalse heof =>
            obtain ⟨g1, g2, g3, g4, g5⟩ := ih ⟨ls⟩ p1 frags2 frags1
              st2.noLineChanges nlc1 (if (!st2.hasRemove && !st2.hasAdd && st2.hasContext) && st2.noLineChanges then ld + 1 else ld)
              (if (!st2.hasRemove && !st2.hasAdd && st2.hasContext) && !st2.noLineChanges then st2.trailingContext + 1 else st2.trailingContext)
              ld1 tr1 (by rw [dl, hlen]) h
            refine ⟨?_, g2, ?_, by rw [g4, ds], fun hall => g5 (dc hall)⟩
            · rw [g1, hvl]
              simp [Parser.advance]
            · rw [g3, dn, htw]
              simp [changeOps, List.any_cons, Bool.and_assoc, Bool.not_or]

theorem map_sharedProj_stable (g : TextFragment → TextFragment)
    (hg : ∀ f, sharedProj (g f) = sharedProj f) (xs : List TextFragment) :
    (xs.map g).map sharedProj = xs.map sharedProj := by
  induction xs with
  | nil => rfl
  | cons a l ih => simp [hg, ih]

theorem counts_map_stable (g : TextFragment → TextFragment)
    (hg : ∀ f, countsOk f → countsOk (g f)) (xs : List TextFragment)
    (h : ∀ fr ∈ xs, countsOk fr) : ∀ fr ∈ xs.map g, countsOk fr := by
  intro fr hfr
  rw [List.mem_map] at hfr
  obtain ⟨a, ha, rfl⟩ := hfr
  exact hg a (h a ha)

/-- What a successful `ParseCombinedTextChunk` guarantees: the cursor
advanced over exactly the `consumedSpec` lines (a function of the input
lines and the parent count alone), the fragment count is unchanged, the
shared header fields are untouched, all fragments got the same leading
and trailing context, the count invariant is preserved, and some
consumed line recorded a change. -/
theorem chunk_ok_spec (fuel : Nat) (p p1 : Parser) (frags frags1 : List TextFragment)
    (h : parseCombinedTextChunk fuel p frags = .ok p1 frags1) :
    p1.lines = p.lines.drop (consumedSpec frags.length p.lines) ∧
    frags1.length = frags.length ∧
    frags1.map sharedProj = frags.map sharedProj ∧
    (∃ ld tr, ∀ fr ∈ frags1, fr.leadingContext = ld ∧ fr.trailingContext = tr) ∧
    ((∀ fr ∈ frags, countsOk fr) → ∀ fr ∈ frags1, countsOk fr) ∧
    (∃ l ∈ p.lines.takeWhile (fun l2 => areValidOps l2 frags.length),
      changeOps frags.length l = true) := by
  unfold parseCombinedTextChunk at h
  by_cases h0 : p.line0 = []
  · rw [if_pos h0] at h
    exact ChunkResult.noConfusion h
  · rw [if_neg h0] at h
    cases hL : chunkLoop frags.length fuel p frags true 0 0 with
    | fuelOut => rw [hL] at h; exact ChunkResult.noConfusion h
    | err p2 e => rw [hL] at h; exact ChunkResult.noConfusion h
    | out p2 frags2 nlc2 ld2 tr2 =>
      rw [hL] at h
      simp only at h
      obtain ⟨g1, g2, g3, g4, g5⟩ :=
        chunkLoop_out_spec frags.length fuel p p2 frags frags2 true nlc2 0 0 ld2 tr2 rfl hL
      cases nlc2 with
      | true => rw [if_pos rfl] at h; exact ChunkResult.noConfusion h
      | false =>
        rw [if_neg (by simp)] at h
        have hany : (p.lines.takeWhile fun l2 => areValidOps l2 frags.length).any
            (changeOps frags.length) = true := by
          have := g3.symm
          simpa using this
        have hchg : ∃ l ∈ p.lines.takeWhile (fun l2 => areValidOps l2 frags.length),
            changeOps frags.length l = true := by
          simpa [List.any_eq_true] using hany
        have hhead : p2.line0 = (p.lines.drop (validLen frags.length p.lines)).headD [] := by
          rw [Parser.line0, g1]
        by_cases hm : isNoNewlineMarker p2.line0 = true
        · rw [if_pos hm] at h
          simp only [ChunkResult.ok.injEq] at h
          obtain ⟨rfl, rfl⟩ := h
          refine ⟨?_, ?_, ?_, ?_, ?_, hchg⟩
          · rw [show (Parser.advance p2).lines = p2.lines.tail from rfl, g1,
              List.tail_drop]
            unfold consumedSpec
            rw [if_pos (by rw [← hhead]; exact hm)]
          · simp [g2]
          · rw [map_sharedProj_stable
                (fun f => { f with leadingContext := ld2, trailingContext := tr2 })
                (fun f => rfl),
              map_sharedProj_stable _ sharedProj_removeLastNewline, g4]
          · exact ⟨ld2, tr2, by
              intro fr hfr
              rw [List.mem_map] at hfr
              obtain ⟨a, _, rfl⟩ := hfr
              exact ⟨rfl, rfl⟩⟩
          · intro hall
            refine counts_map_stable
              (fun f => { f with leadingContext := ld2, trailingContext := tr2 })
              (fun f hf => hf) _ ?_
            exact counts_map_stable _ countsOk_removeLastNewline _ (g5 hall)
        · rw [if_neg hm] at h
          simp only [ChunkResult.ok.injEq] at h
          obtain ⟨rfl, rfl⟩ := h
          refine ⟨?_, ?_, ?_, ?_, ?_, hchg⟩
          · rw [g1]
            unfold consumedSpec
            rw [if_neg (by rw [← hhead]; exact hm), Nat.add_zero]
          · simp [g2]
          · rw [map_sharedProj_stable
                (fun f => { f with leadingContext := ld2, trailingContext := tr2 })
                (fun f => rfl), g4]
          · exact ⟨ld2, tr2, by
              intro fr hfr
              rw [List.mem_map] at hfr
              obtain ⟨a, _, rfl⟩ := hfr
              exact ⟨rfl, rfl⟩⟩
          · intro hall
            exact counts_map_stable
              (fun f => { f with leadingContext := ld2, trailingContext := tr2 })
              (fun f hf => hf) _ (g5 hall)

/-- What a `ParseCombinedTextChunk` ending in `emptyHunkChange`
guarantees: the loop consumed exactly the valid-shape prefix and no
consumed line recorded a change for any parent. -/
theorem chunk_emptyHunk_spec (fuel : Nat) (p p1 : Parser) (frags : List TextFragment)
    (h : parseCombinedTextChunk fuel p frags = .err p1 .emptyHunkChange) :
    p1.lines = p.lines.drop (validLen frags.length p.lines) ∧
    ∀ l ∈ p.lines.takeWhile (fun l2 => areValidOps l2 frags.length),
      changeOps frags.length l = false := by
  unfold parseCombinedTextChunk at h
  by_cases h0 : p.line0 = []
  · rw [if_pos h0] at h
    simp only [ChunkResult.err.injEq] at h
    exact absurd h.2 (by simp)
  · rw [if_neg h0] at h
    cases hL : chunkLoop frags.length fuel p frags true 0 0 with
    | fuelOut => rw [hL] at h; exact ChunkResult.noConfusion h
    | err p2 e =>
      rw [hL] at h
      simp only [ChunkResult.err.injEq] at h
      obtain ⟨op, rfl⟩ := chunkLoop_err_invalidOp frags.length fuel p p2 frags true 0 0 e hL
      exact absurd h.2 (by simp)
    | out p2 frags2 nlc2 ld2 tr2 =>
      rw [hL] at h
      simp only at h
      obtain ⟨g1, g2, g3, g4, g5⟩ :=
        chunkLoop_out_spec frags.length fuel p p2 frags frags2 true nlc2 0 0 ld2 tr2 rfl hL
      cases nlc2 with
      | false =>
        rw [if_neg (by simp)] at h
        by_cases hm : isNoNewlineMarker p2.line0 = true
        · rw [if_pos hm] at h
          exact ChunkResult.noConfusion h
        · rw [if_neg hm] at h
          exact ChunkResult.noConfusion h
      | true =>
        rw [if_pos rfl] at h
        simp only [ChunkResult.err.injEq] at h
        obtain ⟨rfl, -⟩ := h
        refine ⟨g1, ?_⟩
        have hany : (p.lines.takeWhile fun l2 => areValidOps l2 frags.length).any
            (changeOps frags.length) = false := by
          have := g3.symm
          simpa using this
        intro l hl
        have := List.any_eq_false.mp hany l hl
        simpa using this

/-- `ParseCombinedTextChunk` returns only the three body errors; in
particular the line that ends the loop never produces an error by
itself. -/
theorem chunk_err_kinds (fuel : Nat) (p p1 : Parser) (frags : List TextFragment)
    (e : ParseError) (h : parseCombinedTextChunk fuel p frags = .err p1 e) :
    e = .emptyFragment ∨ e = .emptyHunkChange ∨ ∃ op, e = .invalidOperation op := by
  unfold parseCombinedTextChunk at h
  by_cases h0 : p.line0 = []
  · rw [if_pos h0] at h
    simp only [ChunkResult.err.injEq] at h
    exact Or.inl h.2.symm
  · rw [if_neg h0] at h
    cases hL : chunkLoop frags.length fuel p frags true 0 0 with
    | fuelOut => rw [hL] at h; exact ChunkResult.noConfusion h
    | err p2 e2 =>
      rw [hL] at h
      simp only [ChunkResult.err.injEq] at h
      obtain ⟨op, rfl⟩ := chunkLoop_err_invalidOp frags.length fuel p p2 frags true 0 0 e2 hL
      exact Or.inr (Or.inr ⟨op, h.2.symm⟩)
    | out p2 frags2 nlc2 ld2 tr2 =>
      rw [hL] at h
      simp only at h
      cases nlc2 with
      | true =>
        rw [if_pos rfl] at h
        simp only [ChunkResult.err.injEq] at h
        exact Or.inr (Or.inl h.2.symm)
      | false =>
        rw [if_neg (by simp)] at h
        by_cases hm : isNoNewlineMarker p2.line0 = true
        · rw [if_pos hm] at h
          exact ChunkResult.noConfusion h
        · rw [if_neg hm] at h
          exact ChunkResult.noConfusion h

/-- The loop can only time out through the marker branch; entering the
chunk with a non-empty current line, a timed-out loop times out the
chunk. -/
theorem chunk_fuelOut (fuel : Nat) (p : Parser) (frags : List TextFragment)
    (h0 : p.line0 ≠ [])
    (h : chunkLoop frags.length fuel p frags true 0 0 = .fuelOut) :
    parseCombinedTextChunk fuel p frags = .fuelOut := by
  unfold parseCombinedTextChunk
  rw [if_neg h0, h]

/-- C2, amended. The body parser consumes exactly the maximal prefix of
lines whose first N characters are operation characters, plus the one
line after it when that line is a no-newline marker and the group
recorded a change; the consumed count is a function of the input lines
and the parent count alone (the declared header counts never enter);
the group ending in `emptyHunkChange` consumed exactly the maximal
valid prefix; and an error is only ever `emptyFragment`,
`emptyHunkChange` or `invalidOperation` — never one attributed to the
line that ends the loop. -/
theorem chunk_consumption_amended :
    ∀ (fuel : Nat) (p : Parser) (frags : List TextFragment),
      (∀ (p1 : Parser) (frags1 : List TextFragment),
        parseCombinedTextChunk fuel p frags = .ok p1 frags1 →
        p1.lines = p.lines.drop (consumedSpec frags.length p.lines)) ∧
      (∀ (p1 : Parser),
        parseCombinedTextChunk fuel p frags = .err p1 .emptyHunkChange →
        p1.lines = p.lines.drop (validLen frags.length p.lines)) ∧
      (∀ (p1 : Parser) (e : ParseError),
        parseCombinedTextChunk fuel p frags = .err p1 e →
        e = .emptyFragment ∨ e = .emptyHunkChange ∨ ∃ op, e = .invalidOperation op) :=
  fun fuel p frags =>
    ⟨fun p1 frags1 h => (chunk_ok_spec fuel p p1 frags frags1 h).1,
     fun p1 h => (chunk_emptyHunk_spec fuel p p1 frags h).1,
     fun p1 e h => chunk_err_kinds fuel p p1 frags e h⟩

/-- C2, counterexample. With 3 parents, the no-newline marker line fails
the shape test (its third character is `N`), yet the group parse
consumes it: the final cursor stands past the marker, not on it as the
claim requires for every line that fails the shape test. -/
theorem chunk_marker_consumed_counterexample :
    parseCombinedTextChunk 10
        ⟨[str "---a\n", str "\\ No newline at end of file\n", str "XYZ\n"]⟩
        [{}, {}, {}] =
      .ok ⟨[str "XYZ\n"]⟩
        [{ linesDeleted := 1, lines := [{ op := .delete, text := str "a" }] },
         { linesDeleted := 1, lines := [{ op := .delete, text := str "a" }] },
         { linesDeleted := 1, lines := [{ op := .delete, text := str "a" }] }] ∧
    areValidOps (str "\\ No newline at end of file\n") 3 = false := by
  exact ⟨rfl, rfl⟩

/-- C6. Assuming the group parse terminates and hits neither
`emptyFragment` nor `invalidOperation` (it returns `ok` or
`emptyHunkChange`), the `emptyHunkChange` error is returned exactly
when no consumed body line carries a `+` or `-` operation for any
parent: an `emptyHunkChange` outcome means every consumed line was
pure context for all parents, and an `ok` outcome means some consumed
line recorded an add or a delete. -/
theorem empty_hunk_change_iff :
    ∀ (fuel : Nat) (p : Parser) (frags : List TextFragment),
      (∀ (p1 : Parser), parseCombinedTextChunk fuel p frags = .err p1 .emptyHunkChange →
        ∀ l ∈ p.lines.takeWhile (fun l2 => areValidOps l2 frags.length),
          changeOps frags.length l = false) ∧
      (∀ (p1 : Parser) (frags1 : List TextFragment),
        parseCombinedTextChunk fuel p frags = .ok p1 frags1 →
        ∃ l ∈ p.lines.takeWhile (fun l2 => areValidOps l2 frags.length),
          changeOps frags.length l = true) :=
  fun fuel p frags =>
    ⟨fun p1 h => (chunk_emptyHunk_spec fuel p p1 frags h).2,
     fun p1 frags1 h => (chunk_ok_spec fuel p p1 frags frags1 h).2.2.2.2.2⟩

/-- C7. A mid-body no-newline marker in a two-parent group: the marker
line passes the shape test (`\ ` are valid operation characters), the
`\\` branch strips the newline from parent 0's fragment and re-enters
the loop without advancing the cursor (`continue lineLoop` skips
`p.Next()`), so the parse never terminates: for every fuel bound the
run is cut off, never reaching the remaining body line `++b`. -/
theorem midbody_marker_nontermination :
    ∀ fuel : Nat,
      parseCombinedTextChunk fuel
        ⟨[str "--a\n", str "\\ No newline at end of file\n", str "++b\n"]⟩
        [{ oldLines := 1, newLines := 1 }, { oldLines := 1, newLines := 1 }] =
      .fuelOut := by
  intro fuel
  cases fuel with
  | zero => rfl
  | succ k =>
    refine chunk_fuelOut (k + 1) _ _ (by decide) ?_
    rw [show chunkLoop
        (List.length [({ oldLines := 1, newLines := 1 } : TextFragment),
          { oldLines := 1, newLines := 1 }]) (k + 1)
        ⟨[str "--a\n", str "\\ No newline at end of file\n", str "++b\n"]⟩
        [{ oldLines := 1, newLines := 1 }, { oldLines := 1, newLines := 1 }] true 0 0 =
      chunkLoop 2 k ⟨[str "\\ No newline at end of file\n", str "++b\n"]⟩
        [{ oldLines := 1, newLines := 1, linesDeleted := 1,
           lines := [{ op := .delete, text := str "a\n" }] },
         { oldLines := 1, newLines := 1, linesDeleted := 1,
           lines := [{ op := .delete, text := str "a\n" }] }] false 0 0 from rfl]
    exact chunkLoop_marker_absorbs 2 _ (by decide) (by decide) (by decide) k _ (by rfl) false 0 0

/-! ## Helper lemmas: the header parser -/

/-- Exhaustive case analysis of `ParseCombinedTextFragmentHeader`,
phrased with the specification-side vocabulary `notCombinedHeader` and
`headerTokens`. -/
theorem header_cases (p : Parser) :
    (notCombinedHeader p.line0 = true ∧
      parseCombinedTextFragmentHeader p = .ok (p, [])) ∨
    (notCombinedHeader p.line0 = false ∧
      ((headerTokens p.line0 = none ∧
          parseCombinedTextFragmentHeader p = .error (.malformedHeader none)) ∨
       (∃ toks comment, headerTokens p.line0 = some toks ∧
         ((∃ rf, parseCombinedHeaderRanges comment toks = .error (some rf) ∧
             parseCombinedTextFragmentHeader p = .error (.malformedHeader (some rf))) ∨
          (parseCombinedHeaderRanges comment toks = .error none ∧
             parseCombinedTextFragmentHeader p = .error .runtimePanic) ∨
          (∃ frags, parseCombinedHeaderRanges comment toks = .ok frags ∧
             parseCombinedTextFragmentHeader p = .ok (p.advance, frags)))))) := by
  by_cases hpre : ((str "@@@").isPrefixOf p.line0) = true
  · cases hidx : indexOfSub (str "@ -") p.line0 with
    | none =>
      refine Or.inl ⟨?_, ?_⟩
      · simp [notCombinedHeader, hpre, hidx]
      · simp [parseCombinedTextFragmentHeader, hpre, hidx]
    | some k =>
      by_cases hall : ((p.line0.take k).all (· = '@')) = true
      · refine Or.inr ⟨by simp [notCombinedHeader, hpre, hidx, hall], ?_⟩
        cases hsplit : splitAfterFirst p.line0 (headerEndMark k) with
        | none =>
          refine Or.inl ⟨?_, ?_⟩
          · simp [headerTokens, hidx, hsplit]
          · simp [parseCombinedTextFragmentHeader, hpre, hidx, hall, hsplit]
        | some parts =>
          by_cases hlen : (splitChar ' '
              ((parts.1.take (parts.1.length - (headerEndMark k).length)).drop
                (k + 2))).length = k + 1
          case neg =>
            refine Or.inl ⟨?_, ?_⟩
            · simp [headerTokens, hidx, hsplit, hlen]
            · simp [parseCombinedTextFragmentHeader, hpre, hidx, hall, hsplit, hlen]
          case pos =>
            refine Or.inr ⟨splitChar ' '
                ((parts.1.take (parts.1.length - (headerEndMark k).length)).drop
                  (k + 2)), trimSpace parts.2, ?_, ?_⟩
            · simp [headerTokens, hidx, hsplit, hlen]
            · cases hrng : parseCombinedHeaderRanges (trimSpace parts.2)
                  (splitChar ' '
                    ((parts.1.take (parts.1.length - (headerEndMark k).length)).drop
                      (k + 2))) with
              | error e =>
                cases e with
                | none =>
                  refine Or.inr (Or.inl ⟨rfl, ?_⟩)
                  simp [parseCombinedTextFragmentHeader, hpre, hidx, hall, hsplit,
                    hlen, hrng]
                | some rf =>
                  refine Or.inl ⟨rf, rfl, ?_⟩
                  simp [parseCombinedTextFragmentHeader, hpre, hidx, hall, hsplit,
                    hlen, hrng]
              | ok frags =>
                refine Or.inr (Or.inr ⟨frags, rfl, ?_⟩)
                simp [parseCombinedTextFragmentHeader, hpre, hidx, hall, hsplit,
                  hlen, hrng]
      · refine Or.inl ⟨?_, ?_⟩
        · simp [notCombinedHeader, hpre, hidx, hall]
        · simp [parseCombinedTextFragmentHeader, hpre, hidx, hall]
  · refine Or.inl ⟨?_, ?_⟩
    · simp [notCombinedHeader, hpre]
    · simp [parseCombinedTextFragmentHeader, hpre]

theorem hdrRanges_fields (comment : List Char) (ranges : List (List Char))
    (frags : List TextFragment) (h : parseCombinedHeaderRanges comment ranges = .ok frags) :
    ∃ np nl, ∀ fr ∈ frags,
      fr.comment = comment ∧ fr.newPosition = np ∧ fr.newLines = nl ∧
      fr.lines = [] ∧ fr.linesAdded = 0 ∧ fr.linesDeleted = 0 := by
  unfold parseCombinedHeaderRanges at h
  cases hgl : ranges.getLast? with
  | none => rw [hgl] at h; exact Except.noConfusion h
  | some newTok =>
    rw [hgl] at h
    simp only at h
    cases hnr : rangeOfTok newTok with
    | error e => rw [hnr] at h; exact Except.noConfusion h
    | ok nr =>
      rw [hnr] at h
      simp only at h
      cases hmr : mapRanges ranges.dropLast with
      | error e => rw [hmr] at h; exact Except.noConfusion h
      | ok olds =>
        rw [hmr] at h
        simp only [Except.ok.injEq] at h
        subst h
        refine ⟨nr.1, wrap64 (nr.2 + olds.foldl
          (fun acc q => if q.2 < 0 then wrap64 (acc - q.2) else acc)
          (if nr.2 < 0 then wrap64 (0 - nr.2) else 0)), ?_⟩
        intro fr hfr
        rw [List.mem_map] at hfr
        obtain ⟨q, -, rfl⟩ := hfr
        exact ⟨rfl, rfl, rfl, rfl, rfl, rfl⟩

theorem header_ok_fields (p p1 : Parser) (frags : List TextFragment)
    (h : parseCombinedTextFragmentHeader p = .ok (p1, frags)) :
    ∃ c np nl, ∀ fr ∈ frags,
      fr.comment = c ∧ fr.newPosition = np ∧ fr.newLines = nl ∧
      fr.lines = [] ∧ fr.linesAdded = 0 ∧ fr.linesDeleted = 0 := by
  rcases header_cases p with ⟨-, he⟩ | ⟨-, hc⟩
  · have hh := he.symm.trans h
    simp only [Except.ok.injEq, Prod.mk.injEq] at hh
    refine ⟨[], 0, 0, ?_⟩
    rw [← hh.2]
    intro fr hfr
    exact absurd hfr (by simp)
  · rcases hc with ⟨-, he⟩ | ⟨toks, comment, -, hsub⟩
    · exact Except.noConfusion (he.symm.trans h)
    · rcases hsub with ⟨rf, -, he⟩ | ⟨-, he⟩ | ⟨frags2, hrng, he⟩
      · exact Except.noConfusion (he.symm.trans h)
      · exact Except.noConfusion (he.symm.trans h)
      · have hh := he.symm.trans h
        simp only [Except.ok.injEq, Prod.mk.injEq] at hh
        obtain ⟨np, nl, hall⟩ := hdrRanges_fields comment toks frags2 hrng
        exact ⟨comment, np, nl, by rw [← hh.2]; exact hall⟩

theorem rangeOfTok_error_none (tok : List Char) :
    rangeOfTok tok = .error none ↔ tok = [] := by
  cases tok with
  | nil => simp [rangeOfTok]
  | cons c t =>
    cases hpr : parseCombinedRange t with
    | error rf => simp [rangeOfTok, hpr]
    | ok v => simp [rangeOfTok, hpr]

theorem tokDecodes_false_iff (tok : List Char) :
    tokDecodes tok = false ↔ ∃ e, rangeOfTok tok = .error e := by
  unfold tokDecodes
  cases hr : rangeOfTok tok with
  | error e => simp [hr]
  | ok v => simp [hr]

theorem mapRanges_error_mem (toks : List (List Char)) (e : Option RangeFailure)
    (h : mapRanges toks = .error e) : ∃ t ∈ toks, rangeOfTok t = .error e := by
  induction toks with
  | nil => exact Except.noConfusion h
  | cons tok rest ih =>
    unfold mapRanges at h
    cases hr : rangeOfTok tok with
    | error e2 =>
      rw [hr] at h
      simp only [Except.error.injEq] at h
      exact ⟨tok, by simp, by rw [hr, h]⟩
    | ok v =>
      rw [hr] at h
      cases hm : mapRanges rest with
      | error e2 =>
        rw [hm] at h
        simp only [Except.error.injEq] at h
        obtain ⟨t, ht, he⟩ := ih (by rw [hm, h])
        exact ⟨t, by simp [ht], he⟩
      | ok vs => rw [hm] at h; exact Except.noConfusion h

theorem mapRanges_ok_decodes (toks : List (List Char)) (vs : List (Int × Int))
    (h : mapRanges toks = .ok vs) : ∀ t ∈ toks, tokDecodes t = true := by
  induction toks generalizing vs with
  | nil => intro t ht; exact absurd ht (by simp)
  | cons tok rest ih =>
    unfold mapRanges at h
    cases hr : rangeOfTok tok with
    | error e => rw [hr] at h; exact Except.noConfusion h
    | ok v =>
      rw [hr] at h
      cases hm : mapRanges rest with
      | error e => rw [hm] at h; exact Except.noConfusion h
      | ok vs2 =>
        intro t ht
        rcases List.mem_cons.mp ht with rfl | ht2
        · simp [tokDecodes, hr]
        · exact ih vs2 hm t ht2

theorem mapRanges_ok_of_decodes (toks : List (List Char))
    (h : ∀ t ∈ toks, tokDecodes t = true) : ∃ vs, mapRanges toks = .ok vs := by
  induction toks with
  | nil => exact ⟨[], rfl⟩
  | cons tok rest ih =>
    have h1 : tokDecodes tok = true := h tok (by simp)
    unfold tokDecodes at h1
    cases hr : rangeOfTok tok with
    | error e => rw [hr] at h1; simp at h1
    | ok v =>
      obtain ⟨vs, hm⟩ := ih (fun t ht => h t (by simp [ht]))
      exact ⟨v :: vs, by unfold mapRanges; rw [hr, hm]⟩

theorem hdrRanges_decode_spec (comment : List Char) (toks : List (List Char))
    (hne : toks ≠ []) :
    ((∃ e, parseCombinedHeaderRanges comment toks = .error e) ↔
      ∃ t ∈ toks, tokDecodes t = false) ∧
    (parseCombinedHeaderRanges comment toks = .error none → [] ∈ toks) := by
  rcases List.eq_nil_or_concat toks with rfl | ⟨init, last, htoks⟩
  · exact absurd rfl hne
  · rw [List.concat_eq_append] at htoks
    subst htoks
    have hgl : (init ++ [last]).getLast? = some last := by
      simp [List.getLast?_concat]
    have hdl : (init ++ [last]).dropLast = init := by
      simp [List.dropLast_concat]
    constructor
    · constructor
      · rintro ⟨e, he⟩
        unfold parseCombinedHeaderRanges at he
        rw [hgl] at he
        simp only at he
        cases hnr : rangeOfTok last with
        | error e2 =>
          exact ⟨last, by simp, (tokDecodes_false_iff last).mpr ⟨e2, hnr⟩⟩
        | ok nr =>
          rw [hnr] at he
          simp only at he
          cases hmr : mapRanges (init ++ [last]).dropLast with
          | error e2 =>
            rw [hdl] at hmr
            obtain ⟨t, ht, hte⟩ := mapRanges_error_mem init e2 hmr
            exact ⟨t, by simp [ht], (tokDecodes_false_iff t).mpr ⟨e2, hte⟩⟩
          | ok olds =>
            rw [hdl] at hmr
            rw [hdl, hmr] at he
            simp only at he
            exact Except.noConfusion he
      · rintro ⟨t, ht, htf⟩
        unfold parseCombinedHeaderRanges
        rw [hgl]
        simp only
        cases hnr : rangeOfTok last with
        | error e2 => exact ⟨e2, rfl⟩
        | ok nr =>
          simp only
          cases hmr : mapRanges (init ++ [last]).dropLast with
          | error e2 => exact ⟨e2, rfl⟩
          | ok olds =>
            exfalso
            rw [hdl] at hmr
            rcases List.mem_append.mp ht with hti | htl
            · have := mapRanges_ok_decodes init olds hmr t hti
              rw [this] at htf
              exact Bool.noConfusion htf
            · have htl2 : t = last := by simpa using htl
              subst htl2
              rw [show tokDecodes t = true from by unfold tokDecodes; rw [hnr]] at htf
              exact Bool.noConfusion htf
    · intro he
      unfold parseCombinedHeaderRanges at he
      rw [hgl] at he
      simp only at he
      cases hnr : rangeOfTok last with
      | error e2 =>
        rw [hnr] at he
        simp only [Except.error.injEq] at he
        subst he
        have := (rangeOfTok_error_none last).mp hnr
        subst this
        simp
      | ok nr =>
        rw [hnr] at he
        simp only at he
        cases hmr : mapRanges (init ++ [last]).dropLast with
        | error e2 =>
          rw [hmr] at he
          simp only [Except.error.injEq] at he
          subst he
          rw [hdl] at hmr
          obtain ⟨t, ht, hte⟩ := mapRanges_error_mem init none hmr
          have := (rangeOfTok_error_none t).mp hte
          subst this
          simp [ht]
        | ok olds =>
          rw [hmr] at he
          simp only at he
          exact Except.noConfusion he

theorem headerTokens_ne_nil (line : List Char) (toks : List (List Char))
    (h : headerTokens line = some toks) : toks ≠ [] := by
  unfold headerTokens at h
  cases hidx : indexOfSub (str "@ -") line with
  | none => rw [hidx] at h; exact Option.noConfusion h
  | some k =>
    rw [hidx] at h
    simp only at h
    cases hsplit : splitAfterFirst line (headerEndMark k) with
    | none => rw [hsplit] at h; exact Option.noConfusion h
    | some parts =>
      rw [hsplit] at h
      simp only at h
      split at h
      · simp only [Option.some.injEq] at h
        subst h
        intro hnil
        rename_i hlen
        rw [hnil] at hlen
        exact absurd hlen (by simp)
      · exact Option.noConfusion h

theorem recognized_lines_ne_nil (p : Parser)
    (h : notCombinedHeader p.line0 = false) : p.lines ≠ [] := by
  intro hl
  have h0 : p.line0 = [] := by simp [Parser.line0, hl]
  rw [h0] at h
  exact absurd h (by decide)

theorem advance_ne (p : Parser) (h : p.lines ≠ []) : p.advance ≠ p := by
  intro he
  have h2 : p.advance.lines = p.lines := by rw [he]
  cases hp : p.lines with
  | nil => exact h hp
  | cons l ls =>
    have := congrArg List.length h2
    simp [Parser.advance, hp] at this

/-- C5, amended. The header parser returns the empty "not a combined
header" result (cursor unmoved, no fragments, no error) exactly when
the line misses the `@@@` prefix, misses the `@ -` delimiter, or has a
non-`@` character before the delimiter. Once a line is recognized, the
parser fails with the `invalid fragment header` error when the closing
marker is absent or the range section does not split into exactly N+1
tokens; with the tokens in hand, it fails exactly when some range token
does not decode, every failure is a `MalformedHeader` error or the
panic, and the panic (Go slices `ranges[i][1:]` out of range) occurs
only when an empty range token is present. -/
theorem header_recognition_amended :
    ∀ p : Parser,
      (parseCombinedTextFragmentHeader p = .ok (p, []) ↔
        notCombinedHeader p.line0 = true) ∧
      (notCombinedHeader p.line0 = false →
        (headerTokens p.line0 = none →
          parseCombinedTextFragmentHeader p = .error (.malformedHeader none)) ∧
        (∀ toks, headerTokens p.line0 = some toks →
          ((∃ e, parseCombinedTextFragmentHeader p = .error e) ↔
            ∃ t ∈ toks, tokDecodes t = false) ∧
          (∀ e, parseCombinedTextFragmentHeader p = .error e →
            (∃ c, e = .malformedHeader c) ∨ e = .runtimePanic) ∧
          (parseCombinedTextFragmentHeader p = .error .runtimePanic →
            [] ∈ toks))) := by
  intro p
  rcases header_cases p with ⟨hrec, he⟩ | ⟨hrec, hc⟩
  · refine ⟨⟨fun _ => hrec, fun _ => he⟩, ?_⟩
    intro hrec2
    rw [hrec] at hrec2
    exact Bool.noConfusion hrec2
  · constructor
    · constructor
      · intro hok
        exfalso
        rcases hc with ⟨-, he⟩ | ⟨toks, comment, -, hsub⟩
        · rw [he] at hok; exact Except.noConfusion hok
        · rcases hsub with ⟨rf, -, he⟩ | ⟨-, he⟩ | ⟨frags, -, he⟩
          · rw [he] at hok; exact Except.noConfusion hok
          · rw [he] at hok; exact Except.noConfusion hok
          · rw [he] at hok
            simp only [Except.ok.injEq, Prod.mk.injEq] at hok
            exact advance_ne p (recognized_lines_ne_nil p hrec) hok.1
      · intro htrue
        rw [htrue] at hrec
        exact Bool.noConfusion hrec
    · intro _
      constructor
      · intro hnone
        rcases hc with ⟨-, he⟩ | ⟨toks, comment, hsome, -⟩
        · exact he
        · rw [hsome] at hnone; exact Option.noConfusion hnone
      · intro toks hsome
        rcases hc with ⟨hn, -⟩ | ⟨toks2, comment, hsome2, hsub⟩
        · rw [hn] at hsome; exact Option.noConfusion hsome
        · rw [hsome2] at hsome
          injection hsome with htoks
          subst htoks
          have hne : toks2 ≠ [] := headerTokens_ne_nil _ _ hsome2
          obtain ⟨hiff, hmem⟩ := hdrRanges_decode_spec comment toks2 hne
          refine ⟨?_, ?_, ?_⟩
          · constructor
            · rintro ⟨e, he⟩
              rcases hsub with ⟨rf, hrng, -⟩ | ⟨hrng, -⟩ | ⟨frags, -, he2⟩
              · exact hiff.mp ⟨some rf, hrng⟩
              · exact hiff.mp ⟨none, hrng⟩
              · rw [he2] at he; exact Except.noConfusion he
            · intro hex
              obtain ⟨e0, hrng⟩ := hiff.mpr hex
              rcases hsub with ⟨rf, -, he2⟩ | ⟨-, he2⟩ | ⟨frags, hrng2, -⟩
              · exact ⟨_, he2⟩
              · exact ⟨_, he2⟩
              · rw [hrng2] at hrng; exact Except.noConfusion hrng
          · intro e he
            rcases hsub with ⟨rf, -, he2⟩ | ⟨-, he2⟩ | ⟨frags, -, he2⟩
            · have h3 := he2.symm.trans he
              simp only [Except.error.injEq] at h3
              exact Or.inl ⟨some rf, h3.symm⟩
            · have h3 := he2.symm.trans he
              simp only [Except.error.injEq] at h3
              exact Or.inr h3.symm
            · rw [he2] at he; exact Except.noConfusion he
          · intro hpanic
            rcases hsub with ⟨rf, -, he2⟩ | ⟨hrng, -⟩ | ⟨frags, -, he2⟩
            · have h3 := he2.symm.trans hpanic
              simp only [Except.error.injEq] at h3
              exact ParseError.noConfusion h3
            · exact hmem hrng
            · rw [he2] at hpanic; exact Except.noConfusion hpanic

/-- C9. For every hunk group parsed successfully (header plus body),
all fragments returned for the group carry equal `Comment`,
`NewPosition`, `NewLines`, `LeadingContext` and `TrailingContext`
values: the header builds every stub from the one decoded new range and
comment, the body loop touches only the old-side and per-parent line
fields, and the finalization assigns the one leading/trailing context
pair to every stub. -/
theorem fragments_share_new_side (p p1 p2 : Parser) (frags frags2 : List TextFragment)
    (fuel : Nat)
    (hhdr : parseCombinedTextFragmentHeader p = .ok (p1, frags))
    (hchunk : parseCombinedTextChunk fuel p1 frags = .ok p2 frags2) :
    ∀ f1 ∈ frags2, ∀ f2 ∈ frags2,
      f1.comment = f2.comment ∧ f1.newPosition = f2.newPosition ∧
      f1.newLines = f2.newLines ∧ f1.leadingContext = f2.leadingContext ∧
      f1.trailingContext = f2.trailingContext := by
  obtain ⟨c, np, nl, hfields⟩ := header_ok_fields p p1 frags hhdr
  obtain ⟨-, -, hshared, ⟨ld, tr, hlt⟩, -, -⟩ :=
    chunk_ok_spec fuel p1 p2 frags frags2 hchunk
  intro f1 h1 f2 h2
  have key : ∀ f ∈ frags2, sharedProj f = (c, np, nl) := by
    intro f hf
    have hmem : sharedProj f ∈ frags2.map sharedProj := List.mem_map_of_mem _ hf
    rw [hshared, List.mem_map] at hmem
    obtain ⟨a, ha, hpa⟩ := hmem
    obtain ⟨hc2, hnp2, hnl2, -, -, -⟩ := hfields a ha
    rw [← hpa]
    simp [sharedProj, hc2, hnp2, hnl2]
  have h12 : sharedProj f1 = sharedProj f2 := (key f1 h1).trans (key f2 h2).symm
  unfold sharedProj at h12
  simp only [Prod.mk.injEq] at h12
  obtain ⟨hl1, ht1⟩ := hlt f1 h1
  obtain ⟨hl2, ht2⟩ := hlt f2 h2
  exact ⟨h12.1, h12.2.1, h12.2.2, by rw [hl1, hl2], by rw [ht1, ht2]⟩

/-- C9, witness: the two stubs of the group
`@@@ -1 -1 +1 @@@` / `- old` / `+ new` share comment, new position, new
length and the context counts. -/
theorem fragments_share_new_side_witness :
    ({ oldPosition := 1, oldLines := 1, newPosition := 1, newLines := 1,
       linesAdded := 1, linesDeleted := 1,
       lines := [{ op := .delete, text := str "old\n" },
                 { op := .add, text := str "new\n" }] } : TextFragment).comment =
      ({ oldPosition := 1, oldLines := 1, newPosition := 1, newLines := 1,
         lines := [{ op := .context, text := str "old\n" },
                   { op := .context, text := str "new\n" }] } : TextFragment).comment ∧
    ({ oldPosition := 1, oldLines := 1, newPosition := 1, newLines := 1,
       linesAdded := 1, linesDeleted := 1,
       lines := [{ op := .delete, text := str "old\n" },
                 { op := .add, text := str "new\n" }] } : TextFragment).newPosition =
      ({ oldPosition := 1, oldLines := 1, newPosition := 1, newLines := 1,
         lines := [{ op := .context, text := str "old\n" },
                   { op := .context, text := str "new\n" }] } : TextFragment).newPosition ∧
    ({ oldPosition := 1, oldLines := 1, newPosition := 1, newLines := 1,
       linesAdded := 1, linesDeleted := 1,
       lines := [{ op := .delete, text := str "old\n" },
                 { op := .add, text := str "new\n" }] } : TextFragment).newLines =
      ({ oldPosition := 1, oldLines := 1, newPosition := 1, newLines := 1,
         lines := [{ op := .context, text := str "old\n" },
                   { op := .context, text := str "new\n" }] } : TextFragment).newLines ∧
    ({ oldPosition := 1, oldLines := 1, newPosition := 1, newLines := 1,
       linesAdded := 1, linesDeleted := 1,
       lines := [{ op := .delete, text := str "old\n" },
                 { op := .add, text := str "new\n" }] } : TextFragment).leadingContext =
      ({ oldPosition := 1, oldLines := 1, newPosition := 1, newLines := 1,
         lines := [{ op := .context, text := str "old\n" },
                   { op := .context, text := str "new\n" }] } : TextFragment).leadingContext ∧
    ({ oldPosition := 1, oldLines := 1, newPosition := 1, newLines := 1,
       linesAdded := 1, linesDeleted := 1,
       lines := [{ op := .delete, text := str "old\n" },
                 { op := .add, text := str "new\n" }] } : TextFragment).trailingContext =
      ({ oldPosition := 1, oldLines := 1, newPosition := 1, newLines := 1,
         lines := [{ op := .context, text := str "old\n" },
                   { op := .context, text := str "new\n" }] } : TextFragment).trailingContext := by
  exact fragments_share_new_side
    ⟨[str "@@@ -1 -1 +1 @@@\n", str "- old\n", str "+ new\n"]⟩
    ⟨[str "- old\n", str "+ new\n"]⟩ ⟨[]⟩
    [{ oldPosition := 1, oldLines := 1, newPosition := 1, newLines := 1 },
     { oldPosition := 1, oldLines := 1, newPosition := 1, newLines := 1 }]
    [{ oldPosition := 1, oldLines := 1, newPosition := 1, newLines := 1,
       linesAdded := 1, linesDeleted := 1,
       lines := [{ op := .delete, text := str "old\n" },
                 { op := .add, text := str "new\n" }] },
     { oldPosition := 1, oldLines := 1, newPosition := 1, newLines := 1,
       lines := [{ op := .context, text := str "old\n" },
                 { op := .context, text := str "new\n" }] }]
    10 rfl rfl _ (by simp) _ (by simp)

/-- C4, amended. The header-declared `OldLines` is copied verbatim and
never validated against the body, so it need not round-trip (see the
counterexample); the count identity the body parser does maintain for
every successfully parsed hunk group is per stub:
`LinesAdded` = number of Add entries and `LinesDeleted` = number of
Delete entries of that stub's `Lines`. -/
theorem body_counts_amended (p p1 p2 : Parser) (frags frags2 : List TextFragment)
    (fuel : Nat)
    (hhdr : parseCombinedTextFragmentHeader p = .ok (p1, frags))
    (hchunk : parseCombinedTextChunk fuel p1 frags = .ok p2 frags2) :
    ∀ fr ∈ frags2, fr.linesAdded = (addCount fr.lines : Int) ∧
      fr.linesDeleted = (delCount fr.lines : Int) := by
  obtain ⟨c, np, nl, hfields⟩ := header_ok_fields p p1 frags hhdr
  obtain ⟨-, -, -, -, hcnt, -⟩ := chunk_ok_spec fuel p1 p2 frags frags2 hchunk
  have hinit : ∀ fr ∈ frags, countsOk fr := by
    intro fr hfr
    obtain ⟨-, -, -, hl, ha, hd⟩ := hfields fr hfr
    exact ⟨by rw [ha, hl]; simp [addCount], by rw [hd, hl]; simp [delCount]⟩
  exact fun fr hfr => hcnt hinit fr hfr

/-- C4, witness: the count identity at the group
`@@@ -1 -1 +1 @@@` / `- old` / `+ new`, stub 0. -/
theorem body_counts_amended_witness :
    ({ oldPosition := 1, oldLines := 1, newPosition := 1, newLines := 1,
       linesAdded := 1, linesDeleted := 1,
       lines := [{ op := .delete, text := str "old\n" },
                 { op := .add, text := str "new\n" }] } : TextFragment).linesAdded =
      (addCount
        ({ oldPosition := 1, oldLines := 1, newPosition := 1, newLines := 1,
           linesAdded := 1, linesDeleted := 1,
           lines := [{ op := .delete, text := str "old\n" },
                     { op := .add, text := str "new\n" }] } : TextFragment).lines : Int) ∧
    ({ oldPosition := 1, oldLines := 1, newPosition := 1, newLines := 1,
       linesAdded := 1, linesDeleted := 1,
       lines := [{ op := .delete, text := str "old\n" },
                 { op := .add, text := str "new\n" }] } : TextFragment).linesDeleted =
      (delCount
        ({ oldPosition := 1, oldLines := 1, newPosition := 1, newLines := 1,
           linesAdded := 1, linesDeleted := 1,
           lines := [{ op := .delete, text := str "old\n" },
                     { op := .add, text := str "new\n" }] } : TextFragment).lines : Int) := by
  exact body_counts_amended
    ⟨[str "@@@ -1 -1 +1 @@@\n", str "- old\n", str "+ new\n"]⟩
    ⟨[str "- old\n", str "+ new\n"]⟩ ⟨[]⟩
    [{ oldPosition := 1, oldLines := 1, newPosition := 1, newLines := 1 },
     { oldPosition := 1, oldLines := 1, newPosition := 1, newLines := 1 }]
    [{ oldPosition := 1, oldLines := 1, newPosition := 1, newLines := 1,
       linesAdded := 1, linesDeleted := 1,
       lines := [{ op := .delete, text := str "old\n" },
                 { op := .add, text := str "new\n" }] },
     { oldPosition := 1, oldLines := 1, newPosition := 1, newLines := 1,
       lines := [{ op := .context, text := str "old\n" },
                 { op := .context, text := str "new\n" }] }]
    10 rfl rfl _ (by simp)

/-! ## Helper lemmas: the aggregator -/

theorem checkFileFlags_new (f : File) (hN : f.isNew = true) (hD : f.isDelete = false) :
    ∀ frags : List TextFragment, (∃ fr ∈ frags, 0 < fr.oldLines) →
      checkFileFlags f frags = some .newFileHasOldContent := by
  intro frags
  induction frags with
  | nil =>
    rintro ⟨fr, hmem, -⟩
    exact absurd hmem (by simp)
  | cons a rest ih =>
    rintro ⟨fr, hmem, hpos⟩
    unfold checkFileFlags
    by_cases ha : 0 < a.oldLines
    · rw [if_pos ⟨by rw [hN], ha⟩]
    · rw [if_neg (fun hcon => ha hcon.2),
        if_neg (fun hcon => by rw [hD] at hcon; exact Bool.noConfusion hcon.1)]
      apply ih
      rcases List.mem_cons.mp hmem with rfl | hm2
      · exact absurd hpos ha
      · exact ⟨fr, hm2, hpos⟩

theorem checkFileFlags_delete (f : File) (hD : f.isDelete = true) (hN : f.isNew = false) :
    ∀ frags : List TextFragment, (∃ fr ∈ frags, 0 < fr.newLines) →
      checkFileFlags f frags = some .deletedFileHasNewContent := by
  intro frags
  induction frags with
  | nil =>
    rintro ⟨fr, hmem, -⟩
    exact absurd hmem (by simp)
  | cons a rest ih =>
    rintro ⟨fr, hmem, hpos⟩
    unfold checkFileFlags
    rw [if_neg (fun hcon => by rw [hN] at hcon; exact Bool.noConfusion hcon.1)]
    by_cases ha : 0 < a.newLines
    · rw [if_pos ⟨by rw [hD], ha⟩]
    · rw [if_neg (fun hcon => ha hcon.2)]
      apply ih
      rcases List.mem_cons.mp hmem with rfl | hm2
      · exact absurd hpos ha
      · exact ⟨fr, hm2, hpos⟩

theorem aggLoop_appends (fuel : Nat) :
    ∀ (p : Parser) (f : File) (n : Nat),
      (∀ m f1 q, aggLoop fuel p f n = .done m f1 q →
        ∃ added, f1.textFragments = f.textFragments ++ added ∧
          m = n + added.length ∧ f1.isNew = f.isNew ∧ f1.isDelete = f.isDelete) ∧
      (∀ m f1 q e, aggLoop fuel p f n = .errored m f1 q e →
        ∃ added, f1.textFragments = f.textFragments ++ added ∧
          m = n + added.length ∧ f1.isNew = f.isNew ∧ f1.isDelete = f.isDelete) := by
  induction fuel with
  | zero =>
    intro p f n
    exact ⟨fun m f1 q h => AggResult.noConfusion h,
      fun m f1 q e h => AggResult.noConfusion h⟩
  | succ k ih =>
    intro p f n
    constructor
    · intro m f1 q h
      unfold aggLoop at h
      cases hhdr : parseCombinedTextFragmentHeader p with
      | error e0 =>
        rw [hhdr] at h
        simp only at h
        exact AggResult.noConfusion h
      | ok pr =>
        obtain ⟨p1, frags⟩ := pr
        rw [hhdr] at h
        simp only at h
        by_cases hfl : frags.length = 0
        · rw [if_pos hfl] at h
          simp only [AggResult.done.injEq] at h
          obtain ⟨rfl, rfl, rfl⟩ := h
          exact ⟨[], by simp⟩
        · rw [if_neg hfl] at h
          cases hck : checkFileFlags f frags with
          | some e0 =>
            rw [hck] at h
            simp only at h
            exact AggResult.noConfusion h
          | none =>
            rw [hck] at h
            simp only at h
            cases hch : parseCombinedTextChunk k p1 frags with
            | fuelOut =>
              rw [hch] at h
              simp only at h
              exact AggResult.noConfusion h
            | err p2 e0 =>
              rw [hch] at h
              simp only at h
              exact AggResult.noConfusion h
            | ok p2 frags2 =>
              rw [hch] at h
              simp only at h
              obtain ⟨added, ha, hm, hN, hD⟩ :=
                (ih p2 { f with textFragments := f.textFragments ++ frags2 }
                  (n + frags2.length)).1 m f1 q h
              refine ⟨frags2 ++ added, ?_, ?_, hN, hD⟩
              · rw [ha]
                simp
              · rw [hm]
                simp
                omega
    · intro m f1 q e h
      unfold aggLoop at h
      cases hhdr : parseCombinedTextFragmentHeader p with
      | error e0 =>
        rw [hhdr] at h
        simp only [AggResult.errored.injEq] at h
        obtain ⟨rfl, rfl, rfl, rfl⟩ := h
        exact ⟨[], by simp⟩
      | ok pr =>
        obtain ⟨p1, frags⟩ := pr
        rw [hhdr] at h
        simp only at h
        by_cases hfl : frags.length = 0
        · rw [if_pos hfl] at h
          exact AggResult.noConfusion h
        · rw [if_neg hfl] at h
          cases hck : checkFileFlags f frags with
          | some e0 =>
            rw [hck] at h
            simp only [AggResult.errored.injEq] at h
            obtain ⟨rfl, rfl, rfl, rfl⟩ := h
            exact ⟨[], by simp⟩
          | none =>
            rw [hck] at h
            simp only at h
            cases hch : parseCombinedTextChunk k p1 frags with
            | fuelOut =>
              rw [hch] at h
              simp only at h
              exact AggResult.noConfusion h
            | err p2 e0 =>
              rw [hch] at h
              simp only [AggResult.errored.injEq] at h
              obtain ⟨rfl, rfl, rfl, rfl⟩ := h
              exact ⟨[], by simp⟩
            | ok p2 frags2 =>
              rw [hch] at h
              simp only at h
              obtain ⟨added, ha, hm, hN, hD⟩ :=
                (ih p2 { f with textFragments := f.textFragments ++ frags2 }
                  (n + frags2.length)).2 m f1 q e h
              refine ⟨frags2 ++ added, ?_, ?_, hN, hD⟩
              · rw [ha]
                simp
              · rw [hm]
                simp
                omega

/-- C10. `ParseCombinedTextFragments` extends the file's fragment list
only ever by appending, and the returned count `n` is exactly the
number of fragments this call appended, on success and on error alike;
when the first hunk group fails — in the header, in the new/deleted
file validation, or in the body — nothing is appended (`n = 0`, the
file unchanged). -/
theorem aggregator_appends_exactly (fuel : Nat) (p : Parser) (f : File) :
    (∀ n f1 q, parseCombinedTextFragments fuel p f = .done n f1 q →
      ∃ added, f1.textFragments = f.textFragments ++ added ∧ n = added.length) ∧
    (∀ n f1 q e, parseCombinedTextFragments fuel p f = .errored n f1 q e →
      ∃ added, f1.textFragments = f.textFragments ++ added ∧ n = added.length) ∧
    (∀ e, parseCombinedTextFragmentHeader p = .error e →
      parseCombinedTextFragments (fuel + 1) p f = .errored 0 f p e) ∧
    (∀ p1 frags e, parseCombinedTextFragmentHeader p = .ok (p1, frags) →
      frags ≠ [] → checkFileFlags f frags = some e →
      parseCombinedTextFragments (fuel + 1) p f = .errored 0 f p1 e) ∧
    (∀ p1 frags p2 e, parseCombinedTextFragmentHeader p = .ok (p1, frags) →
      frags ≠ [] → checkFileFlags f frags = none →
      parseCombinedTextChunk fuel p1 frags = .err p2 e →
      parseCombinedTextFragments (fuel + 1) p f = .errored 0 f p2 e) := by
  refine ⟨?_, ?_, ?_, ?_, ?_⟩
  · intro n f1 q h
    obtain ⟨added, ha, hm, -, -⟩ := (aggLoop_appends fuel p f 0).1 n f1 q h
    exact ⟨added, ha, by omega⟩
  · intro n f1 q e h
    obtain ⟨added, ha, hm, -, -⟩ := (aggLoop_appends fuel p f 0).2 n f1 q e h
    exact ⟨added, ha, by omega⟩
  · intro e he
    unfold parseCombinedTextFragments aggLoop
    rw [he]
  · intro p1 frags e hhdr hne hck
    unfold parseCombinedTextFragments aggLoop
    rw [hhdr]
    simp only
    rw [if_neg (by simpa using hne), hck]
  · intro p1 frags p2 e hhdr hne hck hch
    unfold parseCombinedTextFragments aggLoop
    rw [hhdr]
    simp only
    rw [if_neg (by simpa using hne), hck]
    simp only
    rw [hch]

/-- C8. After a combined header parses for a new file, any stub with a
positive (post-normalization) old length makes the aggregator fail at
once with `NewFileHasOldContent`: the error is raised with the cursor
still at `p1`, right after the header line, before a single body line
is consumed, with nothing appended; symmetrically a deleted file whose
shared new length is positive fails with `DeletedFileHasNewContent`. -/
theorem new_delete_file_validation (fuel : Nat) (p p1 : Parser) (f : File)
    (frags : List TextFragment)
    (hhdr : parseCombinedTextFragmentHeader p = .ok (p1, frags))
    (hne : frags ≠ []) :
    (f.isNew = true → f.isDelete = false → (∃ fr ∈ frags, 0 < fr.oldLines) →
      parseCombinedTextFragments (fuel + 1) p f =
        .errored 0 f p1 .newFileHasOldContent) ∧
    (f.isDelete = true → f.isNew = false → (∃ fr ∈ frags, 0 < fr.newLines) →
      parseCombinedTextFragments (fuel + 1) p f =
        .errored 0 f p1 .deletedFileHasNewContent) := by
  constructor
  · intro hN hD hex
    unfold parseCombinedTextFragments aggLoop
    rw [hhdr]
    simp only
    rw [if_neg (by simpa using hne), checkFileFlags_new f hN hD frags hex]
  · intro hD hN hex
    unfold parseCombinedTextFragments aggLoop
    rw [hhdr]
    simp only
    rw [if_neg (by simpa using hne), checkFileFlags_delete f hD hN frags hex]

/-- C8, witness: a new file whose header declares old content, and a
deleted file whose header declares new content. -/
theorem new_delete_file_validation_witness :
    parseCombinedTextFragments 10 ⟨[str "@@@ -1,2 -1 +1 @@@\n", str "--x\n"]⟩
        { isNew := true } =
      .errored 0 { isNew := true } ⟨[str "--x\n"]⟩ .newFileHasOldContent ∧
    parseCombinedTextFragments 10 ⟨[str "@@@ -1 -1 +1,2 @@@\n", str "++x\n"]⟩
        { isDelete := true } =
      .errored 0 { isDelete := true } ⟨[str "++x\n"]⟩ .deletedFileHasNewContent := by
  constructor
  · exact (new_delete_file_validation 9 ⟨[str "@@@ -1,2 -1 +1 @@@\n", str "--x\n"]⟩
      ⟨[str "--x\n"]⟩ { isNew := true }
      [{ oldPosition := 1, oldLines := 2, newPosition := 1, newLines := 1 },
       { oldPosition := 1, oldLines := 1, newPosition := 1, newLines := 1 }]
      rfl (by simp)).1 rfl rfl
      ⟨{ oldPosition := 1, oldLines := 2, newPosition := 1, newLines := 1 },
        by simp, by decide⟩
  · exact (new_delete_file_validation 9 ⟨[str "@@@ -1 -1 +1,2 @@@\n", str "++x\n"]⟩
      ⟨[str "++x\n"]⟩ { isDelete := true }
      [{ oldPosition := 1, oldLines := 1, newPosition := 1, newLines := 2 },
       { oldPosition := 1, oldLines := 1, newPosition := 1, newLines := 2 }]
      rfl (by simp)).2 rfl rfl
      ⟨{ oldPosition := 1, oldLines := 1, newPosition := 1, newLines := 2 },
        by simp, by decide⟩

end GitDiff

